import Mathlib

/-!
Verification of the anchoring-service core of `exonum-btc-anchoring`.

The development shallowly embeds the parts of the repository that the
claims concern:

* the Bitcoin sync task (`src/sync/mod.rs`, `SyncWithBitcoinTask`);
* the anchoring chain-update task (`src/sync/mod.rs`, `AnchoringChainUpdateTask`);
* the audit handler (`src/handler/auditing.rs`, `AnchoringHandler::handle_auditing_state`)
  together with `AnchoringConfig::nearest_anchoring_height` (`src/config.rs`);
* the Bitcoin-transaction codec wrappers (`src/btc/macros.rs`) over the standard
  Bitcoin consensus encoding, with the hex and protobuf codecs (`src/proto/mod.rs`).

External collaborators (the Exonum private API, the Bitcoin relay, the
`bitcoin` crate's consensus codec, SHA-256) are modelled explicitly; every
such model carries a doc comment saying what it stands for.
-/

/-! ## Relay transaction status

Modelled from the spec: the relay status lattice
`Unknown < Mempool < Committed(confirmations)` of the Bitcoin relay
(`src/sync/bitcoin_relay`, not included under `src/`); `is_known()` is true
for `Mempool` and `Committed`, and `confirmations()` yields the confirmation
count of a `Committed` status and nothing otherwise. -/

inductive TransactionStatus where
  | unknown
  | mempool
  | committed (confirmations : Nat)
deriving DecidableEq

/-- Modelled from the spec: `is_known()` is true for `Mempool` and `Committed`. -/
def TransactionStatus.is_known : TransactionStatus → Bool
  | .unknown => false
  | .mempool => true
  | .committed _ => true

/-- Modelled from the spec: `confirmations()` returns the confirmation count
carried by a `Committed` status, and `None` for `Unknown` and `Mempool`. -/
def TransactionStatus.confirmations : TransactionStatus → Option Nat
  | .committed n => some n
  | _ => none

/-! ## Bitcoin sync task (`SyncWithBitcoinTask`, `src/sync/mod.rs`) -/

/-- Abstraction of `btc::Transaction` as observed by the sync task: the task
touches a transaction only through `id()` and `prev_tx_id()` (both
`btc::Sha256d` values, modelled as `Nat`). -/
structure SyncTransaction where
  id : Nat
  prev_tx_id : Nat
deriving DecidableEq

/-- Result type mirroring Rust's `Result`, used instead of `Except` so that
equality of outcomes is decidable by derivation. -/
inductive Outcome (ε : Type) (α : Type) where
  | ok (value : α)
  | error (err : ε)
deriving DecidableEq

/-- The error type `SyncWithBitcoinError` of `src/sync/mod.rs` (lines 188-198).
The `Client`/`Relay` transport failures cannot arise in this embedding because
the API and the relay are modelled as total functions; `Internal` keeps the
index of the absent transaction instead of the formatted message. -/
inductive SyncWithBitcoinError where
  | client
  | relay
  | internal (index : Nat)
  | unconfirmedFundingTransaction (txid : Nat)
deriving DecidableEq

/-- `SyncWithBitcoinTask::get_transaction` (`src/sync/mod.rs` lines 342-355):
`transaction_with_index` is the chain list lookup, and an absent index is an
`Internal` error. -/
def get_transaction (chain : List SyncTransaction) (index : Nat) :
    Outcome SyncWithBitcoinError SyncTransaction :=
  match chain[index]? with
  | some transaction => Outcome.ok transaction
  | none => Outcome.error (SyncWithBitcoinError.internal index)

/-- Wrapping decrement on `u64`: the computation `count - 1` performed by
`find_first_uncommitted_transaction` on the `u64` chain length. -/
def u64_pred (n : Nat) : Nat := (n + (2 ^ 64 - 1)) % 2 ^ 64

/-- The loop `for index in (1..=last_index).rev()` of
`SyncWithBitcoinTask::find_first_uncommitted_transaction`
(`src/sync/mod.rs` lines 299-339), including the fall-through special case at
index 0 that inspects the funding transaction's confirmations. The argument is
the current loop index, counting down. -/
def find_uncommitted_from (chain : List SyncTransaction)
    (relay : Nat → TransactionStatus) :
    Nat → Outcome SyncWithBitcoinError (Option (SyncTransaction × Nat))
  | 0 =>
    match get_transaction chain 0 with
    | Outcome.error e => Outcome.error e
    | Outcome.ok transaction =>
      if (relay transaction.prev_tx_id).confirmations.isNone then
        Outcome.error
          (SyncWithBitcoinError.unconfirmedFundingTransaction transaction.prev_tx_id)
      else
        Outcome.ok (some (transaction, 0))
  | index + 1 =>
    match get_transaction chain (index + 1) with
    | Outcome.error e => Outcome.error e
    | Outcome.ok transaction =>
      if (relay transaction.prev_tx_id).is_known then
        Outcome.ok (some (transaction, index + 1))
      else
        find_uncommitted_from chain relay index

/-- `SyncWithBitcoinTask::find_first_uncommitted_transaction`
(`src/sync/mod.rs` lines 277-340). The private API is modelled by the chain
list (`transactions_count` is its length) and the relay by a total status
function. -/
def find_first_uncommitted_transaction (chain : List SyncTransaction)
    (relay : Nat → TransactionStatus) :
    Outcome SyncWithBitcoinError (Option (SyncTransaction × Nat)) :=
  let count := chain.length
  if count = 0 then Outcome.ok none
  else
    let last_index := u64_pred count
    match get_transaction chain last_index with
    | Outcome.error e => Outcome.error e
    | Outcome.ok transaction =>
      if (relay transaction.id).is_known then Outcome.ok none
      else find_uncommitted_from chain relay last_index

/-- `SyncWithBitcoinTask::process` (`src/sync/mod.rs` lines 228-273). The
returned pair is the new cursor together with the list of transactions passed
to the relay's `send_transaction` (at most one); the source sends the selected
transaction once, after selection. -/
def sync_process (chain : List SyncTransaction) (relay : Nat → TransactionStatus)
    (latest_committed_tx_index : Option Nat) :
    Outcome SyncWithBitcoinError (Option Nat × List SyncTransaction) :=
  match latest_committed_tx_index with
  | some index =>
    match get_transaction chain index with
    | Outcome.error e => Outcome.error e
    | Outcome.ok transaction =>
      if (relay transaction.id).is_known then
        let chain_len := chain.length
        if index + 1 = chain_len then Outcome.ok (some index, [])
        else
          match get_transaction chain (index + 1) with
          | Outcome.error e => Outcome.error e
          | Outcome.ok next_transaction =>
            Outcome.ok (some (index + 1), [next_transaction])
      else Outcome.ok (some index, [transaction])
  | none =>
    match find_first_uncommitted_transaction chain relay with
    | Outcome.error e => Outcome.error e
    | Outcome.ok (some (transaction, index)) => Outcome.ok (some index, [transaction])
    | Outcome.ok none => Outcome.ok (none, [])

/-! ## Anchoring chain-update task (`AnchoringChainUpdateTask`, `src/sync/mod.rs`) -/

/-- Modelled from the spec: one entry of the active configuration's ordered
anchoring-key list (`crate::config::Config::anchoring_keys`, whose declaration
is not under `src/`); only the Bitcoin public key matters here, modelled as
`Nat`. -/
structure AnchoringKeys where
  bitcoin_key : Nat
deriving DecidableEq

/-- Modelled from the spec: the active anchoring configuration
(`crate::config::Config`, declaration not under `src/`) restricted to the
ordered anchoring-key list, the only field `handle_proposal` consults when
selecting a signing key. -/
structure Config where
  anchoring_keys : List AnchoringKeys
deriving DecidableEq

/-- Anchoring payload of a transaction, restricted to the block height field
read by `handle_proposal`. -/
structure Payload where
  block_height : Nat
deriving DecidableEq

/-- Abstraction of an anchoring transaction proposal as observed by the
chain-update task: its id and its optional anchoring payload. -/
structure ProposalTransaction where
  txid : Nat
  payload : Option Payload
deriving DecidableEq

/-- The `SignInput` service transaction (`src/blockchain`, shape as used by
`handle_proposal`): input index, input signature, proposal transaction id. -/
structure SignInput where
  input : Nat
  input_signature : Nat
  txid : Nat
deriving DecidableEq

/-- Modelled from the spec: the `anchoring_proposal()` private-API response
(`src/api`, declaration not under `src/`):
`None`, `Available, InsufficientFunds, NoInitialFunds`. -/
inductive AnchoringProposalState where
  | none
  | available (transaction : ProposalTransaction) (inputs : List ProposalTransaction)
  | insufficientFunds (balance : Nat) (total_fee : Nat)
  | noInitialFunds
deriving DecidableEq

/-- `ChainUpdateError` (`src/sync/mod.rs` lines 40-55); `Client` cannot arise
in this embedding (the API is total) and `Internal` drops its message. -/
inductive ChainUpdateError where
  | client
  | insufficientFunds (balance : Nat) (total_fee : Nat)
  | noInitialFunds
  | internal
deriving DecidableEq

/-- `AnchoringChainUpdateTask::find_private_key` (`src/sync/mod.rs` lines
174-184): the first anchoring key for which the local key pool holds a private
key. The key pool (a `HashMap`) is modelled as a partial function from public
to private keys. -/
def find_private_key (key_pool : Nat → Option Nat) (anchoring_keys : List Nat) :
    Option (Nat × Nat) :=
  anchoring_keys.findSome? fun public_key =>
    (key_pool public_key).map fun private_key => (public_key, private_key)

/-- `AnchoringChainUpdateTask::handle_proposal` (`src/sync/mod.rs` lines
113-172). `sign` abstracts the BIP143 input signing of the external
`btc_transaction_utils` crate (private key and input index to signature); the
returned list holds the `SignInput` messages submitted through `sign_input`,
in submission order. -/
def handle_proposal (key_pool : Nat → Option Nat) (sign : Nat → Nat → Nat)
    (config : Config) (proposal : ProposalTransaction)
    (inputs : List ProposalTransaction) :
    Outcome ChainUpdateError (List SignInput) :=
  match find_private_key key_pool (config.anchoring_keys.map AnchoringKeys.bitcoin_key) with
  | none => Outcome.ok []
  | some keypair =>
    match proposal.payload with
    | none => Outcome.error ChainUpdateError.internal
    | some _ =>
      Outcome.ok ((List.range inputs.length).map fun index =>
        SignInput.mk index (sign keypair.2 index) proposal.txid)

/-- `AnchoringChainUpdateTask::process` (`src/sync/mod.rs` lines 90-111). The
proposal state and the configuration stand for the responses of
`anchoring_proposal()` and `config()`; the result carries the submitted
`SignInput` messages. -/
def chain_update_process (state : AnchoringProposalState) (config : Config)
    (key_pool : Nat → Option Nat) (sign : Nat → Nat → Nat) :
    Outcome ChainUpdateError (List SignInput) :=
  match state with
  | AnchoringProposalState.none => Outcome.ok []
  | AnchoringProposalState.available transaction inputs =>
    handle_proposal key_pool sign config transaction inputs
  | AnchoringProposalState.insufficientFunds balance total_fee =>
    Outcome.error (ChainUpdateError.insufficientFunds balance total_fee)
  | AnchoringProposalState.noInitialFunds =>
    Outcome.error ChainUpdateError.noInitialFunds

/-! ## Audit handler (`AnchoringHandler::handle_auditing_state`, `src/handler/auditing.rs`) -/

/-- Modelled from the spec: the quorum `M = ⌊2N/3⌋ + 1` (`::majority_count`,
declared at the crate root, not under `src/`). -/
def majority_count (total : Nat) : Nat := total * 2 / 3 + 1

/-- `AnchoringConfig::nearest_anchoring_height` (`src/config.rs` lines 96-98). -/
def nearest_anchoring_height (frequency height : Nat) : Nat :=
  height - height % frequency

/-- Modelled from the spec: the classification of a Bitcoin transaction by
`TxKind::from` (`details::btc::transactions`, not under `src/`) — an anchoring
transaction (carries an anchoring payload), a funding transaction, or
neither. -/
inductive TxKind where
  | anchoring
  | fundingTx
  | other
deriving DecidableEq

/-- The reason strings of `HandlerError::IncorrectLect` in
`src/handler/auditing.rs`, as an enumeration (in source order of appearance):
`"Incorrect lect transaction"`,
`"Initial funding_tx from cfg is different than in lect"`,
`"Initial funding_tx has no outputs with address=..."`,
`"Initial funding_tx not found in the bitcoin blockchain"`,
`"Lect not found in the bitcoin blockchain"`. -/
inductive LectReason where
  | incorrectLectTransaction
  | fundingTxDiffersFromConfig
  | fundingTxHasNoProperOutputs
  | fundingTxNotFoundInBlockchain
  | lectNotFoundInBlockchain
deriving DecidableEq

/-- The audit errors of `src/handler/auditing.rs`
(`HandlerError::IncorrectLect`, `HandlerError::LectNotFound`); transactions are
identified by `Nat`. -/
inductive HandlerError where
  | incorrectLect (reason : LectReason) (tx : Nat)
  | lectNotFound (height : Nat)
deriving DecidableEq

/-- `LectKind` as used in `handle_auditing_state`. -/
inductive LectKind where
  | anchoring (tx : Nat)
  | funding (tx : Nat)
  | none
deriving DecidableEq

/-- The element of maximal measure, mirroring
`lects.iter().max_by_key(|&(_, v)| v)` of `src/handler/auditing.rs` line 43
over the multiset of last LECT observations (iteration order of the `HashMap`
is irrelevant to every property proved below, because ties never reach the
quorum test). -/
def best_by (measure : Nat → Nat) : List Nat → Option Nat
  | [] => none
  | tx :: rest =>
    match best_by measure rest with
    | none => some tx
    | some best => if measure best < measure tx then some tx else some best

/-- `AnchoringHandler::check_funding_lect` (`src/handler/auditing.rs` lines
79-112). `cfg_funding` is the configured funding transaction at height 0,
`find_out` models `FundingTx::find_out` against the multisig address, and
`client` models the optional `bitcoind` lookup (`None` when the handler has no
client). -/
def check_funding_lect (cfg_funding : Nat) (find_out : Nat → Bool)
    (client : Option (Nat → Bool)) (tx : Nat) : Outcome HandlerError Unit :=
  if tx ≠ cfg_funding then
    Outcome.error (HandlerError.incorrectLect LectReason.fundingTxDiffersFromConfig tx)
  else if find_out tx = false then
    Outcome.error (HandlerError.incorrectLect LectReason.fundingTxHasNoProperOutputs tx)
  else
    match client with
    | some get_tx =>
      if get_tx tx = false then
        Outcome.error (HandlerError.incorrectLect LectReason.fundingTxNotFoundInBlockchain tx)
      else Outcome.ok ()
    | none => Outcome.ok ()

/-- `AnchoringHandler::check_anchoring_lect` (`src/handler/auditing.rs` lines
114-128). -/
def check_anchoring_lect (client : Option (Nat → Bool)) (tx : Nat) :
    Outcome HandlerError Unit :=
  match client with
  | some get_tx =>
    if get_tx tx = false then
      Outcome.error (HandlerError.incorrectLect LectReason.lectNotFoundInBlockchain tx)
    else Outcome.ok ()
  | none => Outcome.ok ()

/-- The LECT-selection block of `handle_auditing_state`
(`src/handler/auditing.rs` lines 24-62): count each validator's last LECT
observation, take a transaction of maximal count, compare against the quorum,
and classify it; a quorum LECT of kind `Other` is an immediate
`IncorrectLect` error. `lects` has one entry per validator, `none` for a
validator without LECT observations. -/
def select_lect (lects : List (Option Nat)) (kind_of : Nat → TxKind) :
    Outcome HandlerError LectKind :=
  let candidates := lects.filterMap id
  match best_by (fun tx => candidates.count tx) candidates with
  | some lect =>
    if majority_count lects.length ≤ candidates.count lect then
      match kind_of lect with
      | TxKind.anchoring => Outcome.ok (LectKind.anchoring lect)
      | TxKind.fundingTx => Outcome.ok (LectKind.funding lect)
      | TxKind.other =>
        Outcome.error (HandlerError.incorrectLect LectReason.incorrectLectTransaction lect)
    else Outcome.ok LectKind.none
  | none => Outcome.ok LectKind.none

/-- `AnchoringHandler::handle_auditing_state` (`src/handler/auditing.rs` lines
18-77). `frequency` is the anchoring interval of the active configuration and
`check_lect_frequency` the node's audit period; the remaining parameters feed
the funding/anchoring LECT checks. -/
def handle_auditing_state (check_lect_frequency frequency height : Nat)
    (lects : List (Option Nat)) (kind_of : Nat → TxKind)
    (cfg_funding : Nat) (find_out : Nat → Bool) (client : Option (Nat → Bool)) :
    Outcome HandlerError Unit :=
  if height % check_lect_frequency = 0 then
    match select_lect lects kind_of with
    | Outcome.error e => Outcome.error e
    | Outcome.ok (LectKind.funding tx) => check_funding_lect cfg_funding find_out client tx
    | Outcome.ok (LectKind.anchoring tx) => check_anchoring_lect client tx
    | Outcome.ok LectKind.none =>
      Outcome.error (HandlerError.lectNotFound (nearest_anchoring_height frequency height))
  else Outcome.ok ()

/-! ## Bitcoin consensus codec

Modelled from the spec: the standard Bitcoin consensus encoding
(witness-inclusive) implemented by `bitcoin::consensus::serialize` /
`deserialize` of the external `bitcoin` crate, to which the wrapper macros of
`src/btc/macros.rs` delegate. Byte strings are lists of `Fin 256`; integers
are little-endian fixed-width fields; variable-length counts are Bitcoin
`CompactSize` varints with the crate's non-minimal-encoding rejection;
`deserialize` demands full consumption of its input. The crate's allocation
caps (`MAX_VEC_SIZE`), a denial-of-service guard on decode and not part of
the encoding itself, are not modelled. -/

abbrev Byte := Fin 256

/-- Truncation of a natural number to one byte. -/
def mkByte (n : Nat) : Byte := ⟨n % 256, Nat.mod_lt n (by decide)⟩

/-- Little-endian value of a byte string. -/
def leNat : List Byte → Nat
  | [] => 0
  | b :: rest => b.val + 256 * leNat rest

/-- Little-endian encoding of `n` on `width` bytes (truncating). -/
def encodeLe : (width : Nat) → Nat → List Byte
  | 0, _ => []
  | width + 1, n => mkByte n :: encodeLe width (n / 256)

/-- Decoder primitive: exactly `n` raw bytes. -/
def dBytes (n : Nat) (bs : List Byte) : Option (List Byte × List Byte) :=
  if n ≤ bs.length then some (bs.take n, bs.drop n) else none

/-- Decoder primitive: a `width`-byte little-endian integer. -/
def dLe (width : Nat) (bs : List Byte) : Option (Nat × List Byte) :=
  match dBytes width bs with
  | some (xs, rest) => some (leNat xs, rest)
  | none => none

/-- Bitcoin `CompactSize` varint encoding of a count. -/
def encodeVarInt (n : Nat) : List Byte :=
  if n < 0xFD then [mkByte n]
  else if n < 0x10000 then mkByte 0xFD :: encodeLe 2 n
  else if n < 0x100000000 then mkByte 0xFE :: encodeLe 4 n
  else mkByte 0xFF :: encodeLe 8 n

/-- Bitcoin `CompactSize` varint decoding, rejecting non-minimal encodings as
the `bitcoin` crate does (`NonMinimalVarInt`). -/
def dVarInt : List Byte → Option (Nat × List Byte)
  | [] => none
  | b :: rest =>
    if b.val < 0xFD then some (b.val, rest)
    else if b.val = 0xFD then
      match dLe 2 rest with
      | some (n, rest') => if n < 0xFD then none else some (n, rest')
      | none => none
    else if b.val = 0xFE then
      match dLe 4 rest with
      | some (n, rest') => if n < 0x10000 then none else some (n, rest')
      | none => none
    else
      match dLe 8 rest with
      | some (n, rest') => if n < 0x100000000 then none else some (n, rest')
      | none => none

/-- Length-prefixed byte string (scripts, witness stack items). -/
def encodeScript (s : List Byte) : List Byte := encodeVarInt s.length ++ s

/-- Decoder for a length-prefixed byte string. -/
def dScript (bs : List Byte) : Option (List Byte × List Byte) :=
  match dVarInt bs with
  | some (n, rest) => dBytes n rest
  | none => none

/-- Decoder for exactly `n` consecutive items of an element decoder. -/
def dList {α : Type} (p : List Byte → Option (α × List Byte)) :
    Nat → List Byte → Option (List α × List Byte)
  | 0, bs => some ([], bs)
  | n + 1, bs =>
    match p bs with
    | some (x, rest) =>
      match dList p n rest with
      | some (xs, rest') => some (x :: xs, rest')
      | none => none
    | none => none

/-- Count-prefixed vector encoding. -/
def encodeVec {α : Type} (enc : α → List Byte) (xs : List α) : List Byte :=
  encodeVarInt xs.length ++ (xs.map enc).join

/-- Count-prefixed vector decoding. -/
def dVec {α : Type} (p : List Byte → Option (α × List Byte)) (bs : List Byte) :
    Option (List α × List Byte) :=
  match dVarInt bs with
  | some (n, rest) => dList p n rest
  | none => none

/-- `bitcoin::OutPoint`: 32-byte previous transaction id and output index. -/
structure OutPoint where
  txid : List Byte
  vout : Nat
deriving DecidableEq

/-- `bitcoin::TxIn`: previous output, signature script, sequence number and
segregated witness stack (the witness is carried by the input but excluded
from the input's own consensus encoding). -/
structure TxIn where
  previous_output : OutPoint
  script_sig : List Byte
  sequence : Nat
  witness : List (List Byte)
deriving DecidableEq

/-- `bitcoin::TxOut`: value in satoshis and public-key script. -/
structure TxOut where
  value : Nat
  script_pubkey : List Byte
deriving DecidableEq

/-- `bitcoin::Transaction`, the inner type of the `btc::Transaction` wrapper. -/
structure Transaction where
  version : Nat
  input : List TxIn
  output : List TxOut
  lock_time : Nat
deriving DecidableEq

/-- Well-formedness matching the Rust types: a 32-byte txid and a `u32`
output index. -/
def OutPoint.wf (o : OutPoint) : Prop := o.txid.length = 32 ∧ o.vout < 2 ^ 32

/-- Well-formedness matching the Rust types: `u32` sequence, and `u64`-bounded
lengths (in Rust these are `usize` values on a 64-bit target). -/
def TxIn.wf (i : TxIn) : Prop :=
  i.previous_output.wf ∧ i.script_sig.length < 2 ^ 64 ∧ i.sequence < 2 ^ 32 ∧
    i.witness.length < 2 ^ 64 ∧ ∀ item ∈ i.witness, item.length < 2 ^ 64

/-- Well-formedness matching the Rust types: a `u64` value and a
`u64`-bounded script length. -/
def TxOut.wf (o : TxOut) : Prop :=
  o.value < 2 ^ 64 ∧ o.script_pubkey.length < 2 ^ 64

/-- Well-formedness matching the Rust types. -/
def Transaction.wf (tx : Transaction) : Prop :=
  tx.version < 2 ^ 32 ∧ tx.lock_time < 2 ^ 32 ∧
    tx.input.length < 2 ^ 64 ∧ tx.output.length < 2 ^ 64 ∧
    (∀ i ∈ tx.input, i.wf) ∧ ∀ o ∈ tx.output, o.wf

instance (o : OutPoint) : Decidable o.wf :=
  decidable_of_iff (o.txid.length = 32 ∧ o.vout < 2 ^ 32) Iff.rfl

instance (i : TxIn) : Decidable i.wf :=
  decidable_of_iff (i.previous_output.wf ∧ i.script_sig.length < 2 ^ 64 ∧
    i.sequence < 2 ^ 32 ∧ i.witness.length < 2 ^ 64 ∧
    ∀ item ∈ i.witness, item.length < 2 ^ 64) Iff.rfl

instance (o : TxOut) : Decidable o.wf :=
  decidable_of_iff (o.value < 2 ^ 64 ∧ o.script_pubkey.length < 2 ^ 64) Iff.rfl

instance (tx : Transaction) : Decidable tx.wf :=
  decidable_of_iff (tx.version < 2 ^ 32 ∧ tx.lock_time < 2 ^ 32 ∧
    tx.input.length < 2 ^ 64 ∧ tx.output.length < 2 ^ 64 ∧
    (∀ i ∈ tx.input, i.wf) ∧ ∀ o ∈ tx.output, o.wf) Iff.rfl

/-- Consensus encoding of an outpoint: raw txid then `u32` index. -/
def encodeOutPoint (o : OutPoint) : List Byte := o.txid ++ encodeLe 4 o.vout

/-- Consensus decoding of an outpoint. -/
def dOutPoint (bs : List Byte) : Option (OutPoint × List Byte) :=
  match dBytes 32 bs with
  | some (txid, rest) =>
    match dLe 4 rest with
    | some (vout, rest') => some (OutPoint.mk txid vout, rest')
    | none => none
  | none => none

/-- Consensus encoding of an input (witness excluded, as in the crate). -/
def encodeTxIn (i : TxIn) : List Byte :=
  encodeOutPoint i.previous_output ++ encodeScript i.script_sig ++ encodeLe 4 i.sequence

/-- Consensus decoding of an input; the witness field is left empty and is
filled at transaction level on the segwit path. -/
def dTxIn (bs : List Byte) : Option (TxIn × List Byte) :=
  match dOutPoint bs with
  | some (previous_output, rest) =>
    match dScript rest with
    | some (script_sig, rest') =>
      match dLe 4 rest' with
      | some (sequence, rest'') =>
        some (TxIn.mk previous_output script_sig sequence [], rest'')
      | none => none
    | none => none
  | none => none

/-- Consensus encoding of an output. -/
def encodeTxOut (o : TxOut) : List Byte :=
  encodeLe 8 o.value ++ encodeScript o.script_pubkey

/-- Consensus decoding of an output. -/
def dTxOut (bs : List Byte) : Option (TxOut × List Byte) :=
  match dLe 8 bs with
  | some (value, rest) =>
    match dScript rest with
    | some (script_pubkey, rest') => some (TxOut.mk value script_pubkey, rest')
    | none => none
  | none => none

/-- One input's witness: a count-prefixed stack of length-prefixed items. -/
def encodeWitness (w : List (List Byte)) : List Byte := encodeVec encodeScript w

/-- Decoder for one input's witness stack. -/
def dWitness (bs : List Byte) : Option (List (List Byte) × List Byte) :=
  dVec dScript bs

/-- The crate's `have_witness` test: the segwit serialization format is used
when the input list is empty or some input carries a witness. -/
def txHasWitness (tx : Transaction) : Bool :=
  tx.input.isEmpty || tx.input.any fun i => !i.witness.isEmpty

/-- `bitcoin::consensus::serialize` for a transaction: the legacy layout when
no witness data is present, otherwise the BIP144 layout with marker byte `0`
and flag byte `1`. -/
def consensusEncodeTx (tx : Transaction) : List Byte :=
  if txHasWitness tx then
    encodeLe 4 tx.version ++
      mkByte 0 :: mkByte 1 ::
        (encodeVec encodeTxIn tx.input ++ encodeVec encodeTxOut tx.output ++
          (tx.input.map fun i => encodeWitness i.witness).join ++
          encodeLe 4 tx.lock_time)
  else
    encodeLe 4 tx.version ++
      (encodeVec encodeTxIn tx.input ++ encodeVec encodeTxOut tx.output ++
        encodeLe 4 tx.lock_time)

/-- `Transaction::consensus_decode` of the `bitcoin` crate: an empty leading
input vector switches to the BIP144 path (flag byte must be `1`, per-input
witness stacks follow the outputs, and a non-empty input list whose witnesses
are all empty is rejected). -/
def decodeTx (bs : List Byte) : Option (Transaction × List Byte) :=
  match dLe 4 bs with
  | none => none
  | some (version, r0) =>
    match dVec dTxIn r0 with
    | none => none
    | some (ins, r1) =>
      if ins.isEmpty then
        match r1 with
        | [] => none
        | flag :: r2 =>
          if flag.val = 1 then
            match dVec dTxIn r2 with
            | none => none
            | some (input0, r3) =>
              match dVec dTxOut r3 with
              | none => none
              | some (output, r4) =>
                match dList dWitness input0.length r4 with
                | none => none
                | some (wits, r5) =>
                  if !(List.zipWith (fun i w => { i with witness := w }) input0 wits).isEmpty &&
                      (List.zipWith (fun i w => { i with witness := w }) input0 wits).all
                        (fun i => i.witness.isEmpty) then none
                  else
                    match dLe 4 r5 with
                    | none => none
                    | some (lock_time, r6) =>
                      some (Transaction.mk version
                        (List.zipWith (fun i w => { i with witness := w }) input0 wits)
                        output lock_time, r6)
          else none
      else
        match dVec dTxOut r1 with
        | none => none
        | some (output, r2) =>
          match dLe 4 r2 with
          | none => none
          | some (lock_time, r3) => some (Transaction.mk version ins output lock_time, r3)

/-- `BinaryValue::to_bytes` of the `btc::Transaction` wrapper
(`src/btc/macros.rs` lines 26-28): `bitcoin::consensus::serialize`. -/
def transaction_to_bytes (tx : Transaction) : List Byte := consensusEncodeTx tx

/-- `BinaryValue::from_bytes` of the `btc::Transaction` wrapper
(`src/btc/macros.rs` lines 30-33): `bitcoin::consensus::deserialize`, which
fails unless the whole input is consumed. -/
def transaction_from_bytes (bs : List Byte) : Option Transaction :=
  match decodeTx bs with
  | some (tx, rest) => if rest = [] then some tx else none
  | none => none

/-! ## Hex codec of the wrapper (`src/btc/macros.rs`, `impl_string_conversions_for_hex`) -/

/-- Modelled from the `hex` crate: value of one ASCII hex digit, accepting
both lower and upper case (`0-9`, `a-f`, `A-F`); characters are ASCII
codes. -/
def hexDigitValue (c : Nat) : Option Nat :=
  if 48 ≤ c ∧ c ≤ 57 then some (c - 48)
  else if 97 ≤ c ∧ c ≤ 102 then some (c - 87)
  else if 65 ≤ c ∧ c ≤ 70 then some (c - 55)
  else none

/-- Modelled from the `hex` crate: lower-case ASCII digit of a nibble. -/
def hexDigitChar (n : Nat) : Nat := if n < 10 then n + 48 else n + 87

/-- Modelled from the `hex` crate: `hex::decode`, two digits per byte, failing
on an odd-length or non-hex input. -/
def hexDecode : List Nat → Option (List Byte)
  | [] => some []
  | [_] => none
  | c1 :: c2 :: rest =>
    match hexDigitValue c1, hexDigitValue c2, hexDecode rest with
    | some h, some l, some bs => some (mkByte (h * 16 + l) :: bs)
    | _, _, _ => none

/-- Modelled from the `hex` crate: `encode_hex`, lower-case. -/
def hexEncode (bs : List Byte) : List Nat :=
  bs.bind fun b => [hexDigitChar (b.val / 16), hexDigitChar (b.val % 16)]

/-- Whether a character string is entirely lower-case hex digits. -/
def isLowerHexString (s : List Nat) : Bool :=
  s.all fun c => (48 ≤ c && c ≤ 57) || (97 ≤ c && c ≤ 102)

/-- `hex::FromHex` of the wrapper (`src/btc/macros.rs` lines 43-51):
`hex::decode` then `bitcoin::consensus::deserialize`. -/
def transaction_from_hex (s : List Nat) : Option Transaction :=
  match hexDecode s with
  | some bs => transaction_from_bytes bs
  | none => none

/-- `hex::ToHex::encode_hex` of the wrapper (`src/btc/macros.rs` lines 53-56):
lower-case hex of `bitcoin::consensus::serialize`. -/
def transaction_to_hex (tx : Transaction) : List Nat :=
  hexEncode (consensusEncodeTx tx)

/-! ## Content hash of the wrapper (`src/btc/macros.rs`, `impl ObjectHash`) -/

/-- Splits a message into 64-byte blocks; the fuel argument (instantiated with
the list length) makes the recursion structural. -/
def chunk64 : Nat → List Byte → List (List Byte)
  | 0, _ => []
  | _, [] => []
  | fuel + 1, bs => bs.take 64 :: chunk64 fuel (bs.drop 64)

/-- Big-endian encoding of `n` on `width` bytes. -/
def beBytes : Nat → Nat → List Byte
  | 0, _ => []
  | width + 1, n => beBytes width (n / 256) ++ [mkByte n]

/-- Big-endian value of a byte string (for the 32-bit words of SHA-256). -/
def beWord (bs : List Byte) : Nat := bs.foldl (fun acc b => acc * 256 + b.val) 0

/-- Right rotation on 32-bit words. -/
def rotr32 (x n : Nat) : Nat := ((x >>> n) ||| (x <<< (32 - n))) % 2 ^ 32

/-- Modelled from the SHA-256 standard (FIPS 180-4): the round constants. -/
def sha_k : List Nat :=
  [1116352408, 1899447441, 3049323471, 3921009573,
   961987163, 1508970993, 2453635748, 2870763221,
   3624381080, 310598401, 607225278, 1426881987,
   1925078388, 2162078206, 2614888103, 3248222580,
   3835390401, 4022224774, 264347078, 604807628,
   770255983, 1249150122, 1555081692, 1996064986,
   2554220882, 2821834349, 2952996808, 3210313671,
   3336571891, 3584528711, 113926993, 338241895,
   666307205, 773529912, 1294757372, 1396182291,
   1695183700, 1986661051, 2177026350, 2456956037,
   2730485921, 2820302411, 3259730800, 3345764771,
   3516065817, 3600352804, 4094571909, 275423344,
   430227734, 506948616, 659060556, 883997877,
   958139571, 1322822218, 1537002063, 1747873779,
   1955562222, 2024104815, 2227730452, 2361852424,
   2428436474, 2756734187, 3204031479, 3329325298]

/-- Modelled from the SHA-256 standard: one message-schedule extension step,
appending word `W[t]` computed from `W[t-2]`, `W[t-7]`, `W[t-15]`, `W[t-16]`. -/
def sha_step (ws : List Nat) : List Nat :=
  let t := ws.length
  let w15 := ws.getD (t - 15) 0
  let w2 := ws.getD (t - 2) 0
  let w16 := ws.getD (t - 16) 0
  let w7 := ws.getD (t - 7) 0
  let s0 := rotr32 w15 7 ^^^ rotr32 w15 18 ^^^ (w15 >>> 3)
  let s1 := rotr32 w2 17 ^^^ rotr32 w2 19 ^^^ (w2 >>> 10)
  ws ++ [(w16 + s0 + w7 + s1) % 2 ^ 32]

/-- Modelled from the SHA-256 standard: the 64-word message schedule. -/
def sha_schedule (ws : List Nat) : List Nat :=
  (List.range 48).foldl (fun acc _ => sha_step acc) ws

/-- Modelled from the SHA-256 standard: one compression round on the state
`[a, b, c, d, e, f, g, h]`. -/
def sha_round (st : List Nat) (k w : Nat) : List Nat :=
  match st with
  | [a, b, c, d, e, f, g, h] =>
    let s1 := rotr32 e 6 ^^^ rotr32 e 11 ^^^ rotr32 e 25
    let ch := (e &&& f) ^^^ ((e ^^^ 0xFFFFFFFF) &&& g)
    let t1 := (h + s1 + ch + k + w) % 2 ^ 32
    let s0 := rotr32 a 2 ^^^ rotr32 a 13 ^^^ rotr32 a 22
    let mj := (a &&& b) ^^^ (a &&& c) ^^^ (b &&& c)
    let t2 := (s0 + mj) % 2 ^ 32
    [(t1 + t2) % 2 ^ 32, a, b, c, (d + t1) % 2 ^ 32, e, f, g]
  | st' => st'

/-- Modelled from the SHA-256 standard: compression of one 64-byte block into
the running state. -/
def sha_compress (h0 : List Nat) (block : List Byte) : List Nat :=
  let ws0 := (List.range 16).map fun i => beWord ((block.drop (4 * i)).take 4)
  let ws := sha_schedule ws0
  let final := (List.zip sha_k ws).foldl (fun st kw => sha_round st kw.1 kw.2) h0
  List.zipWith (fun x y => (x + y) % 2 ^ 32) h0 final

/-- Modelled from the SHA-256 standard: message padding to a multiple of 64
bytes, with the `0x80` marker and the 8-byte big-endian bit length. -/
def sha_pad (msg : List Byte) : List Byte :=
  let zero_count := (55 + 64 - msg.length % 64) % 64
  msg ++ mkByte 0x80 :: List.replicate zero_count (mkByte 0) ++ beBytes 8 (msg.length * 8)

/-- Modelled from the spec: `exonum::crypto::hash` is SHA-256 (FIPS 180-4). -/
def sha256 (msg : List Byte) : List Byte :=
  let padded := sha_pad msg
  let blocks := chunk64 padded.length padded
  let h0 : List Nat :=
    [1779033703, 3144134277, 1013904242, 2773480762,
     1359893119, 2600822924, 528734635, 1541459225]
  (blocks.foldl sha_compress h0).bind fun w => beBytes 4 w

/-- `ObjectHash::object_hash` of the `btc::Transaction` wrapper
(`src/btc/macros.rs` lines 36-41): `exonum::crypto::hash` of
`bitcoin::consensus::serialize`. -/
def transaction_object_hash (tx : Transaction) : List Byte :=
  sha256 (consensusEncodeTx tx)

/-! ## Protobuf conversions (`src/proto/mod.rs`) -/

/-- The generated protobuf struct `btc_types::Transaction`: a single `data`
bytes field holding the consensus serialization. -/
structure PbTransaction where
  data : List Byte
deriving DecidableEq

/-- `ProtobufConvert::to_pb` for `btc::Transaction` (`src/proto/mod.rs` lines
50-55). -/
def transaction_to_pb (tx : Transaction) : PbTransaction :=
  PbTransaction.mk (consensusEncodeTx tx)

/-- `ProtobufConvert::from_pb` for `btc::Transaction` (`src/proto/mod.rs`
lines 57-60): `bitcoin::consensus::deserialize` of the `data` field. -/
def transaction_from_pb (pb : PbTransaction) : Option Transaction :=
  transaction_from_bytes pb.data

/-- Modelled from the `bitcoin` crate: the network identifiers available to
`GlobalConfig` (mainnet, testnet, regtest). -/
inductive Network where
  | bitcoin
  | testnet
  | regtest
deriving DecidableEq

/-- Modelled from the `bitcoin` crate: `Network::magic`. -/
def Network.magic : Network → Nat
  | .bitcoin => 0xD9B4BEF9
  | .testnet => 0x0709110B
  | .regtest => 0xDAB5BFFA

/-- Modelled from the `bitcoin` crate: `Network::from_magic`. -/
def Network.from_magic (magic : Nat) : Option Network :=
  if magic = 0xD9B4BEF9 then some Network.bitcoin
  else if magic = 0x0709110B then some Network.testnet
  else if magic = 0xDAB5BFFA then some Network.regtest
  else none

/-- Modelled from the spec: a `btc::PublicKey` as its serialized secp256k1
point, 33 bytes with prefix `2`/`3` when compressed, 65 bytes with prefix `4`
otherwise (`write_into` emits exactly these bytes; curve membership is not
modelled). -/
structure PublicKey where
  data : List Byte
deriving DecidableEq

/-- Shape validity of a serialized public key as checked by
`bitcoin::PublicKey::from_slice`. -/
def PublicKey.wf (k : PublicKey) : Prop :=
  (k.data.length = 33 ∧ (k.data.headI.val = 2 ∨ k.data.headI.val = 3)) ∨
    (k.data.length = 65 ∧ k.data.headI.val = 4)

instance (k : PublicKey) : Decidable k.wf :=
  decidable_of_iff ((k.data.length = 33 ∧ (k.data.headI.val = 2 ∨ k.data.headI.val = 3)) ∨
    (k.data.length = 65 ∧ k.data.headI.val = 4)) Iff.rfl

/-- `ProtobufConvert::to_pb` for `btc::PublicKey` (`src/proto/mod.rs` lines
35-39): `write_into` the serialized point. -/
def public_key_to_pb (k : PublicKey) : List Byte := k.data

/-- `ProtobufConvert::from_pb` for `btc::PublicKey` (`src/proto/mod.rs` lines
41-44): `bitcoin::PublicKey::from_slice`, modelled by the shape check. -/
def public_key_from_pb (bytes : List Byte) : Option PublicKey :=
  if (bytes.length = 33 ∧ (bytes.headI.val = 2 ∨ bytes.headI.val = 3)) ∨
      (bytes.length = 65 ∧ bytes.headI.val = 4) then
    some (PublicKey.mk bytes)
  else none

/-- Modelled from the spec: `crate::config::GlobalConfig` (declaration not
under `src/`), with the fields written by its `ProtobufConvert`
implementation in `src/proto/mod.rs`. -/
structure GlobalConfig where
  network : Network
  public_keys : List PublicKey
  funding_transaction : Option Transaction
  anchoring_interval : Nat
  transaction_fee : Nat
deriving DecidableEq

/-- Validity of a configuration: parsable public keys and, when present, a
well-formed funding transaction. -/
def GlobalConfig.wf (c : GlobalConfig) : Prop :=
  (∀ k ∈ c.public_keys, k.wf) ∧ ∀ tx ∈ c.funding_transaction, tx.wf

instance (c : GlobalConfig) : Decidable c.wf :=
  decidable_of_iff ((∀ k ∈ c.public_keys, k.wf) ∧ ∀ tx ∈ c.funding_transaction, tx.wf)
    Iff.rfl

/-- The generated protobuf struct `Config` (`src/proto/service.rs`): network
magic, serialized anchoring keys, interval, fee, and the funding transaction's
consensus bytes — an unset funding transaction reads back as the default
empty `data` field. -/
structure PbConfig where
  network : Nat
  anchoring_keys : List (List Byte)
  anchoring_interval : Nat
  transaction_fee : Nat
  funding_transaction : List Byte
deriving DecidableEq

/-- `ProtobufConvert::to_pb` for `GlobalConfig` (`src/proto/mod.rs` lines
83-95): the funding transaction field is set only when present, so an absent
one leaves the default empty bytes. The `u64` fields convert to themselves. -/
def global_config_to_pb (c : GlobalConfig) : PbConfig :=
  PbConfig.mk c.network.magic (c.public_keys.map public_key_to_pb)
    c.anchoring_interval c.transaction_fee
    (match c.funding_transaction with
     | some tx => consensusEncodeTx tx
     | none => [])

/-- `ProtobufConvert::from_pb` for `GlobalConfig` (`src/proto/mod.rs` lines
97-116): an unknown magic fails; an empty funding `data` decodes to `None`,
anything else must deserialize as a transaction. -/
def global_config_from_pb (pb : PbConfig) : Option GlobalConfig :=
  match Network.from_magic pb.network with
  | none => none
  | some network =>
    match
      (match pb.funding_transaction with
       | [] => some none
       | bs => (transaction_from_bytes bs).map some) with
    | none => none
    | some funding_transaction =>
      match pb.anchoring_keys.mapM public_key_from_pb with
      | none => none
      | some public_keys =>
        some (GlobalConfig.mk network public_keys funding_transaction
          pb.anchoring_interval pb.transaction_fee)

/-! ## Lemmas about the sync task -/

theorem u64_pred_eq (n : Nat) (h0 : n ≠ 0) (h1 : n < 2 ^ 64) : u64_pred n = n - 1 := by
  unfold u64_pred
  have h : n + (2 ^ 64 - 1) = (n - 1) + 2 ^ 64 := by omega
  rw [h, Nat.add_mod_right]
  exact Nat.mod_eq_of_lt (by omega)

theorem get?_some_of_lt {α : Type} (l : List α) (i : Nat) (h : i < l.length) :
    ∃ x, l[i]? = some x := by
  cases hx : l[i]? with
  | some x => exact ⟨x, rfl⟩
  | none => exact absurd (List.getElem?_eq_none_iff.mp hx) (by omega)

theorem find_uncommitted_from_hits (chain : List SyncTransaction)
    (relay : Nat → TransactionStatus) :
    ∀ (m k : Nat) (t : SyncTransaction),
      1 ≤ k → k ≤ m → m < chain.length → chain[k]? = some t →
      (relay t.prev_tx_id).is_known = true →
      (∀ j t', k < j → j ≤ m → chain[j]? = some t' →
        (relay t'.prev_tx_id).is_known = false) →
      find_uncommitted_from chain relay m = Outcome.ok (some (t, k)) := by
  intro m
  induction m with
  | zero => intro k t hk hkm _ _ _ _; omega
  | succ m ih =>
    intro k t hk hkm hmlen hget hknown hrest
    rcases Nat.lt_or_ge k (m + 1) with hlt | hge
    · obtain ⟨t', hnext⟩ := get?_some_of_lt chain (m + 1) hmlen
      have hnk : (relay t'.prev_tx_id).is_known = false :=
        hrest (m + 1) t' (by omega) (Nat.le_refl _) hnext
      have hstep : find_uncommitted_from chain relay (m + 1) =
          find_uncommitted_from chain relay m := by
        simp [find_uncommitted_from, get_transaction, hnext, hnk]
      rw [hstep]
      exact ih k t hk (by omega) (by omega) hget hknown
        (fun j t'' hj hjm => hrest j t'' hj (by omega))
    · have hkm1 : k = m + 1 := by omega
      subst hkm1
      simp [find_uncommitted_from, get_transaction, hget, hknown]

theorem find_uncommitted_from_bottom (chain : List SyncTransaction)
    (relay : Nat → TransactionStatus) :
    ∀ (m : Nat), m < chain.length →
      (∀ j t', 1 ≤ j → j ≤ m → chain[j]? = some t' →
        (relay t'.prev_tx_id).is_known = false) →
      find_uncommitted_from chain relay m = find_uncommitted_from chain relay 0 := by
  intro m
  induction m with
  | zero => intro _ _; rfl
  | succ m ih =>
    intro hmlen hall
    obtain ⟨t', hnext⟩ := get?_some_of_lt chain (m + 1) hmlen
    have hnk : (relay t'.prev_tx_id).is_known = false :=
      hall (m + 1) t' (by omega) (Nat.le_refl _) hnext
    have hstep : find_uncommitted_from chain relay (m + 1) =
        find_uncommitted_from chain relay m := by
      simp [find_uncommitted_from, get_transaction, hnext, hnk]
    rw [hstep]
    exact ih (by omega) (fun j t'' hj hjm => hall j t'' hj (by omega))

theorem find_first_eq (chain : List SyncTransaction) (relay : Nat → TransactionStatus)
    (L : Nat) (tail : SyncTransaction)
    (hlen : chain.length = L + 1) (hsize : chain.length < 2 ^ 64)
    (htail : chain[L]? = some tail) :
    find_first_uncommitted_transaction chain relay =
      if (relay tail.id).is_known then Outcome.ok none
      else find_uncommitted_from chain relay L := by
  have h0 : chain.length ≠ 0 := by omega
  have hp : u64_pred chain.length = L := by
    rw [u64_pred_eq chain.length h0 hsize]; omega
  unfold find_first_uncommitted_transaction
  simp [h0, hp, get_transaction, htail]

theorem find_uncommitted_from_zero (chain : List SyncTransaction)
    (relay : Nat → TransactionStatus) (t0 : SyncTransaction)
    (h0 : chain[0]? = some t0) :
    find_uncommitted_from chain relay 0 =
      if (relay t0.prev_tx_id).confirmations.isNone then
        Outcome.error (SyncWithBitcoinError.unconfirmedFundingTransaction t0.prev_tx_id)
      else Outcome.ok (some (t0, 0)) := by
  unfold find_uncommitted_from get_transaction
  rw [h0]

/-- C1: on a cold start (cursor `None`) over a non-empty anchoring chain,
`find_first_uncommitted_transaction` returns `None` when the tail's status is
known to the relay, and otherwise walks indices `L, L-1, …, 1` and returns
`(chain[k], k)` for the first (largest) index `k` whose predecessor
`chain[k-1]` is known to the relay (in the mempool or committed). The claim's
"committed" is amended to "known": the source tests `TransactionStatus::
is_known`, which also holds for `Mempool`. `hlink` is the anchoring-chain
linkage invariant (`chain[i+1].prev_tx_id = chain[i].id`). -/
theorem C1_find_first_walk (chain : List SyncTransaction)
    (relay : Nat → TransactionStatus) (L k : Nat)
    (tail t p : SyncTransaction)
    (hlen : chain.length = L + 1) (hsize : chain.length < 2 ^ 64)
    (htail : chain[L]? = some tail)
    (hlink : ∀ i ti ti', chain[i]? = some ti → chain[i + 1]? = some ti' →
      ti'.prev_tx_id = ti.id) :
    ((relay tail.id).is_known = true →
      find_first_uncommitted_transaction chain relay = Outcome.ok none) ∧
    ((relay tail.id).is_known = false → 1 ≤ k → k ≤ L →
      chain[k]? = some t → chain[k - 1]? = some p →
      (relay p.id).is_known = true →
      (∀ j q, k < j → j ≤ L → chain[j - 1]? = some q →
        (relay q.id).is_known = false) →
      find_first_uncommitted_transaction chain relay = Outcome.ok (some (t, k))) := by
  constructor
  · intro hknown
    rw [find_first_eq chain relay L tail hlen hsize htail, hknown]
    rfl
  · intro hunknown hk1 hkL hgk hgp hpknown hafter
    rw [find_first_eq chain relay L tail hlen hsize htail, hunknown]
    simp only [Bool.false_eq_true, if_false]
    apply find_uncommitted_from_hits chain relay L k t hk1 hkL (by omega) hgk
    · have hk : k - 1 + 1 = k := by omega
      have := hlink (k - 1) p t hgp (by rw [hk]; exact hgk)
      rw [this]
      exact hpknown
    · intro j t' hkj hjL hgj
      obtain ⟨q, hq⟩ := get?_some_of_lt chain (j - 1) (by omega)
      have hj : j - 1 + 1 = j := by omega
      have hprev := hlink (j - 1) q t' hq (by rw [hj]; exact hgj)
      rw [hprev]
      exact hafter j q hkj hjL hq

/-- Fixture for the C1 witness: a linked two-entry chain. -/
def c1w_t0 : SyncTransaction := SyncTransaction.mk 10 99

/-- Fixture for the C1 witness. -/
def c1w_t1 : SyncTransaction := SyncTransaction.mk 11 10

/-- Fixture for the C1 witness: the tail is unknown, its predecessor and the
funding transaction are committed. -/
def c1w_relay : Nat → TransactionStatus := fun txid =>
  if txid = 10 then TransactionStatus.committed 3
  else if txid = 99 then TransactionStatus.committed 9
  else TransactionStatus.unknown

theorem C1_witness :
    find_first_uncommitted_transaction [c1w_t0, c1w_t1] c1w_relay =
      Outcome.ok (some (c1w_t1, 1)) := by
  apply (C1_find_first_walk [c1w_t0, c1w_t1] c1w_relay 1 1 c1w_t1 c1w_t1 c1w_t0
    (by decide) (by decide) (by decide) ?link).2 (by decide) (by decide) (by decide)
    (by decide) (by decide) (by decide) ?after
  case link =>
    intro i ti ti' hti hti'
    match i with
    | 0 =>
      simp only [List.getElem?_cons_zero, Option.some.injEq] at hti
      simp only [List.getElem?_cons_succ, List.getElem?_cons_zero, Option.some.injEq] at hti'
      rw [← hti, ← hti']
      rfl
    | n + 1 =>
      simp only [List.getElem?_cons_succ, List.getElem?_nil] at hti'
      exact Option.noConfusion hti'
  case after =>
    intro j q hj hj1 _
    omega

/-- Fixture for the C1 counterexample: a linked two-entry chain. -/
def c1c_t0 : SyncTransaction := SyncTransaction.mk 1 100

/-- Fixture for the C1 counterexample. -/
def c1c_t1 : SyncTransaction := SyncTransaction.mk 2 1

/-- Fixture for the C1 counterexample: the tail is in the mempool (known but
not committed), everything below is committed. -/
def c1c_relay : Nat → TransactionStatus := fun txid =>
  if txid = 2 then TransactionStatus.mempool
  else if txid = 1 then TransactionStatus.committed 5
  else if txid = 100 then TransactionStatus.committed 10
  else TransactionStatus.unknown

/-- C1 counterexample: the chain tail `chain[1]` has status `Mempool`, hence
is not committed in Bitcoin, and the predecessor `chain[0]` of index 1 is
committed, so the claim as stated demands the walk to return
`(chain[1], 1)` — but the source returns `None`, because the tail test uses
`is_known`, which already holds for `Mempool`. -/
theorem C1_counterexample :
    (c1c_relay c1c_t1.id).confirmations = none ∧
    c1c_relay c1c_t0.id = TransactionStatus.committed 5 ∧
    find_first_uncommitted_transaction [c1c_t0, c1c_t1] c1c_relay = Outcome.ok none ∧
    find_first_uncommitted_transaction [c1c_t0, c1c_t1] c1c_relay ≠
      Outcome.ok (some (c1c_t1, 1)) := by
  refine ⟨rfl, rfl, by decide, by decide⟩

/-- C2: when the cold-start walk reaches index 0 (the tail is not known to
the relay and no walked entry's predecessor is known), the task queries the
relay for `chain[0].prev_tx_id` — the funding transaction — and fails with
`UnconfirmedFundingTransaction` exactly when the relay reports no
confirmations for it (status `Unknown` or `Mempool`); when it is `Committed`
the task returns `(chain[0], 0)`. The claim's "unknown to Bitcoin" is amended
to "has no confirmations": the source tests `confirmations().is_none()`,
which also holds for `Mempool`. -/
theorem C2_funding_special_case (chain : List SyncTransaction)
    (relay : Nat → TransactionStatus) (L : Nat) (tail t0 : SyncTransaction)
    (hlen : chain.length = L + 1) (hsize : chain.length < 2 ^ 64)
    (htail : chain[L]? = some tail) (h0 : chain[0]? = some t0)
    (htail_unknown : (relay tail.id).is_known = false)
    (hwalk : ∀ j t', 1 ≤ j → j ≤ L → chain[j]? = some t' →
      (relay t'.prev_tx_id).is_known = false) :
    ((relay t0.prev_tx_id).confirmations = none →
      find_first_uncommitted_transaction chain relay =
        Outcome.error (SyncWithBitcoinError.unconfirmedFundingTransaction t0.prev_tx_id)) ∧
    (∀ n, (relay t0.prev_tx_id).confirmations = some n →
      find_first_uncommitted_transaction chain relay = Outcome.ok (some (t0, 0))) := by
  have hfirst : find_first_uncommitted_transaction chain relay =
      find_uncommitted_from chain relay 0 := by
    rw [find_first_eq chain relay L tail hlen hsize htail, htail_unknown]
    simp only [Bool.false_eq_true, if_false]
    exact find_uncommitted_from_bottom chain relay L (by omega) hwalk
  rw [hfirst, find_uncommitted_from_zero chain relay t0 h0]
  constructor
  · intro hc
    rw [hc]
    rfl
  · intro n hc
    rw [hc]
    rfl

/-- Fixture for the C2 witness: a one-entry chain whose funding transaction
is committed. -/
def c2w_t0 : SyncTransaction := SyncTransaction.mk 21 88

/-- Fixture for the C2 witness. -/
def c2w_relay : Nat → TransactionStatus := fun txid =>
  if txid = 88 then TransactionStatus.committed 12 else TransactionStatus.unknown

theorem C2_witness :
    find_first_uncommitted_transaction [c2w_t0] c2w_relay =
      Outcome.ok (some (c2w_t0, 0)) := by
  apply (C2_funding_special_case [c2w_t0] c2w_relay 0 c2w_t0 c2w_t0
    (by decide) (by decide) (by decide) (by decide) (by decide) ?walk).2 12 (by decide)
  case walk =>
    intro j t' hj hj0 _
    omega

/-- Fixture for the C2 counterexample: a one-entry chain. -/
def c2c_t0 : SyncTransaction := SyncTransaction.mk 5 77

/-- Fixture for the C2 counterexample: the anchoring transaction is unknown
and the funding transaction sits in the mempool. -/
def c2c_relay : Nat → TransactionStatus := fun txid =>
  if txid = 77 then TransactionStatus.mempool else TransactionStatus.unknown

/-- C2 counterexample: the funding transaction has status `Mempool`, hence is
known to Bitcoin (not unknown), so the claim as stated demands the result
`(chain[0], 0)` — but the source fails with
`UnconfirmedFundingTransaction(77)`, because it tests
`confirmations().is_none()`, which also holds for `Mempool`. -/
theorem C2_counterexample :
    (c2c_relay c2c_t0.prev_tx_id).is_known = true ∧
    find_first_uncommitted_transaction [c2c_t0] c2c_relay =
      Outcome.error (SyncWithBitcoinError.unconfirmedFundingTransaction 77) ∧
    find_first_uncommitted_transaction [c2c_t0] c2c_relay ≠
      Outcome.ok (some (c2c_t0, 0)) := by
  refine ⟨rfl, by decide, by decide⟩

/-- C3: with cursor `Some(i)` and `i` in range, `process` fetches transaction
`i` and asks the relay for its status: when the status is known to the relay
(mempool or committed) it advances — returning `Some(i)` without sending when
`i+1` equals the chain length, and otherwise sending `chain[i+1]` and
returning `Some(i+1)`; when the status is not known it retransmits
transaction `i` and returns `Some(i)`. The claim's "committed" is amended to
"known": the source tests `TransactionStatus::is_known`, which also holds
for `Mempool`. -/
theorem C3_process_with_cursor (chain : List SyncTransaction)
    (relay : Nat → TransactionStatus) (index : Nat) (t : SyncTransaction)
    (hget : chain[index]? = some t) :
    ((relay t.id).is_known = false →
      sync_process chain relay (some index) = Outcome.ok (some index, [t])) ∧
    ((relay t.id).is_known = true → index + 1 = chain.length →
      sync_process chain relay (some index) = Outcome.ok (some index, [])) ∧
    (∀ t', (relay t.id).is_known = true → chain[index + 1]? = some t' →
      sync_process chain relay (some index) = Outcome.ok (some (index + 1), [t'])) := by
  refine ⟨?notKnown, ?lastOne, ?advance⟩
  case notKnown =>
    intro hunknown
    simp [sync_process, get_transaction, hget, hunknown]
  case lastOne =>
    intro hknown hlast
    simp [sync_process, get_transaction, hget, hknown, hlast]
  case advance =>
    intro t' hknown hnext
    have hne : ¬ index + 1 = chain.length := by
      have hlt : index + 1 < chain.length := by
        by_contra hcon
        rw [List.getElem?_eq_none_iff.mpr (by omega)] at hnext
        exact Option.noConfusion hnext
      omega
    simp [sync_process, get_transaction, hget, hknown, hnext, hne]

/-- Fixture for the C3 witness: a two-entry chain. -/
def c3w_t0 : SyncTransaction := SyncTransaction.mk 31 90

/-- Fixture for the C3 witness. -/
def c3w_t1 : SyncTransaction := SyncTransaction.mk 32 31

/-- Fixture for the C3 witness: the transaction at the cursor is unknown. -/
def c3w_relay : Nat → TransactionStatus := fun _ => TransactionStatus.unknown

theorem C3_witness :
    sync_process [c3w_t0, c3w_t1] c3w_relay (some 1) = Outcome.ok (some 1, [c3w_t1]) :=
  (C3_process_with_cursor [c3w_t0, c3w_t1] c3w_relay 1 c3w_t1 (by decide)).1 (by decide)

/-- Fixture for the C3 counterexample: a two-entry chain. -/
def c3c_t0 : SyncTransaction := SyncTransaction.mk 1 9

/-- Fixture for the C3 counterexample. -/
def c3c_t1 : SyncTransaction := SyncTransaction.mk 2 1

/-- Fixture for the C3 counterexample: the transaction at the cursor is in
the mempool. -/
def c3c_relay : Nat → TransactionStatus := fun txid =>
  if txid = 1 then TransactionStatus.mempool else TransactionStatus.unknown

/-- C3 counterexample: with cursor `Some(0)` the transaction `chain[0]` has
status `Mempool`, hence is not committed, so the claim as stated demands a
retransmission of `chain[0]` and cursor `Some(0)` — but the source treats
`Mempool` as known, advances, sends `chain[1]` and returns `Some(1)`. -/
theorem C3_counterexample :
    c3c_relay c3c_t0.id = TransactionStatus.mempool ∧
    sync_process [c3c_t0, c3c_t1] c3c_relay (some 0) = Outcome.ok (some 1, [c3c_t1]) ∧
    sync_process [c3c_t0, c3c_t1] c3c_relay (some 0) ≠ Outcome.ok (some 0, [c3c_t0]) := by
  refine ⟨rfl, by decide, by decide⟩

/-- C9: on an empty anchoring chain with cursor `None`, `process` returns
`Ok(None)` for every relay whatsoever — so no relay status query or
`send_transaction` call can influence or occur in the result (the returned
send list is empty) — and the `count - 1` computation is reached only behind
the `count == 0` guard, under which the wrapping `u64` decrement is the exact
predecessor (no underflow). -/
theorem C9_empty_chain (relay : Nat → TransactionStatus) (n : Nat) :
    sync_process [] relay none = Outcome.ok (none, []) ∧
    find_first_uncommitted_transaction [] relay = Outcome.ok none ∧
    (n ≠ 0 → n < 2 ^ 64 → u64_pred n + 1 = n) := by
  refine ⟨rfl, rfl, fun h0 h1 => ?_⟩
  rw [u64_pred_eq n h0 h1]
  omega

theorem C9_witness :
    sync_process [] (fun _ => TransactionStatus.unknown) none = Outcome.ok (none, []) ∧
    find_first_uncommitted_transaction [] (fun _ => TransactionStatus.unknown) =
      Outcome.ok none ∧
    u64_pred 5 + 1 = 5 :=
  ⟨(C9_empty_chain (fun _ => TransactionStatus.unknown) 5).1,
   (C9_empty_chain (fun _ => TransactionStatus.unknown) 5).2.1,
   (C9_empty_chain (fun _ => TransactionStatus.unknown) 5).2.2 (by decide) (by decide)⟩

/-! ## Lemmas about the chain-update task -/

theorem find_private_key_none (key_pool : Nat → Option Nat) :
    ∀ (keys : List Nat), (∀ k ∈ keys, key_pool k = none) →
      find_private_key key_pool keys = none := by
  intro keys
  induction keys with
  | nil => intro _; rfl
  | cons k rest ih =>
    intro hall
    have hk : key_pool k = none := hall k (by simp)
    simp [find_private_key, List.findSome?_cons, hk]
    have := ih fun x hx => hall x (by simp [hx])
    simpa [find_private_key] using this

/-- C4: `AnchoringChainUpdateTask::process` surfaces the proposal state's
funding errors unchanged — `InsufficientFunds` with the same balance and
total fee, `NoInitialFunds` as `NoInitialFunds` — and returns `Ok(())` on
state `None` without consulting the configuration, the key pool or the
signer (the result is the same for all of them) and without submitting any
`SignInput`. -/
theorem C4_process_surfaces_errors (config : Config) (key_pool : Nat → Option Nat)
    (sign : Nat → Nat → Nat) (balance total_fee : Nat) :
    chain_update_process (AnchoringProposalState.insufficientFunds balance total_fee)
        config key_pool sign =
      Outcome.error (ChainUpdateError.insufficientFunds balance total_fee) ∧
    chain_update_process AnchoringProposalState.noInitialFunds config key_pool sign =
      Outcome.error ChainUpdateError.noInitialFunds ∧
    chain_update_process AnchoringProposalState.none config key_pool sign =
      Outcome.ok [] :=
  ⟨rfl, rfl, rfl⟩

/-- C5: on an `Available` proposal the task selects, via `find_private_key`,
the first public key of the configuration's ordered anchoring-key list for
which the local key pool holds a private key (stated as an equation against
the straightforward first-match specification); and when no configuration
key is in the pool, `process` returns `Ok(())` with no `SignInput`
submitted. -/
theorem C5_first_pool_key (key_pool : Nat → Option Nat) (anchoring_keys : List Nat)
    (config : Config) (sign : Nat → Nat → Nat) (proposal : ProposalTransaction)
    (inputs : List ProposalTransaction)
    (hnone : ∀ k ∈ config.anchoring_keys, key_pool k.bitcoin_key = none) :
    find_private_key key_pool anchoring_keys =
      ((anchoring_keys.find? fun k => (key_pool k).isSome).bind
        fun k => (key_pool k).map fun sk => (k, sk)) ∧
    chain_update_process (AnchoringProposalState.available proposal inputs)
        config key_pool sign = Outcome.ok [] := by
  constructor
  · induction anchoring_keys with
    | nil => rfl
    | cons k rest ih =>
      cases hk : key_pool k with
      | some sk => simp [find_private_key, List.findSome?_cons, List.find?_cons, hk]
      | none =>
        simp only [find_private_key, List.findSome?_cons, List.find?_cons, hk,
          Option.map_none', Option.isSome_none, Bool.false_eq_true, if_false]
        simpa [find_private_key] using ih
  · have hfpk : find_private_key key_pool
        (config.anchoring_keys.map AnchoringKeys.bitcoin_key) = none := by
      apply find_private_key_none
      intro x hx
      obtain ⟨k, hk, hkx⟩ := List.mem_map.mp hx
      rw [← hkx]
      exact hnone k hk
    simp [chain_update_process, handle_proposal, hfpk]

theorem C5_witness :
    find_private_key (fun _ => none) [3, 4] =
      (([3, 4].find? fun k => ((fun _ => (none : Option Nat)) k).isSome).bind
        fun k => ((fun _ => (none : Option Nat)) k).map fun sk => (k, sk)) ∧
    chain_update_process
        (AnchoringProposalState.available (ProposalTransaction.mk 9 none) [])
        (Config.mk [AnchoringKeys.mk 5]) (fun _ => none) (fun _ _ => 0) =
      Outcome.ok [] :=
  C5_first_pool_key (fun _ => none) [3, 4] (Config.mk [AnchoringKeys.mk 5])
    (fun _ _ => 0) (ProposalTransaction.mk 9 none) [] (by decide)

/-! ## Lemmas about the audit handler -/

theorem best_by_none (measure : Nat → Nat) :
    ∀ (l : List Nat), best_by measure l = none → l = [] := by
  intro l
  cases l with
  | nil => intro _; rfl
  | cons x rest =>
    intro h
    unfold best_by at h
    split at h
    · exact Option.noConfusion h
    · split at h <;> exact Option.noConfusion h

theorem best_by_mem (measure : Nat → Nat) :
    ∀ (l : List Nat) (b : Nat), best_by measure l = some b → b ∈ l := by
  intro l
  induction l with
  | nil => intro b h; exact Option.noConfusion h
  | cons x rest ih =>
    intro b h
    unfold best_by at h
    split at h
    · cases h; exact List.mem_cons_self x rest
    · rename_i hr
      split at h
      · cases h; exact List.mem_cons_self x rest
      · cases h; exact List.mem_cons_of_mem x (ih _ hr)

theorem best_by_max (measure : Nat → Nat) :
    ∀ (l : List Nat) (b : Nat), best_by measure l = some b →
      ∀ x ∈ l, measure x ≤ measure b := by
  intro l
  induction l with
  | nil => intro b h; exact Option.noConfusion h
  | cons y rest ih =>
    intro b h x hx
    unfold best_by at h
    split at h
    · rename_i hr
      cases h
      have hrest := best_by_none measure rest hr
      subst hrest
      rcases List.mem_cons.mp hx with hxy | hxr
      · rw [hxy]
      · exact absurd hxr (List.not_mem_nil x)
    · rename_i hr
      split at h
      · rename_i hc
        cases h
        rcases List.mem_cons.mp hx with hxy | hxr
        · rw [hxy]
        · exact Nat.le_of_lt (Nat.lt_of_le_of_lt (ih _ hr x hxr) hc)
      · rename_i hc
        cases h
        rcases List.mem_cons.mp hx with hxy | hxr
        · rw [hxy]; omega
        · exact ih _ hr x hxr

theorem count_filterMap_id (lects : List (Option Nat)) (tx : Nat) :
    (lects.filterMap id).count tx = lects.count (some tx) := by
  induction lects with
  | nil => rfl
  | cons o rest ih =>
    cases o with
    | none => simp [List.count_cons, ih]
    | some v =>
      by_cases hv : v = tx
      · subst hv; simp [List.count_cons, ih]
      · simp [List.count_cons, ih, hv, Option.some_inj]

theorem count_pair_le (a b : Nat) (hab : a ≠ b) :
    ∀ (l : List Nat), l.count a + l.count b ≤ l.length := by
  intro l
  induction l with
  | nil => simp
  | cons x rest ih =>
    simp only [List.count_cons, List.length_cons, beq_iff_eq]
    by_cases hxa : x = a
    · have hxb : ¬ x = b := fun hc => hab (hxa.symm.trans hc)
      rw [if_pos hxa, if_neg hxb]
      omega
    · by_cases hxb : x = b
      · rw [if_neg hxa, if_pos hxb]
        omega
      · rw [if_neg hxa, if_neg hxb]
        omega

theorem majority_count_double (n : Nat) : n < 2 * majority_count n := by
  unfold majority_count
  omega

theorem majority_count_pos (n : Nat) : 1 ≤ majority_count n := by
  unfold majority_count
  omega

theorem check_funding_lect_no_lect_not_found (cfg_funding : Nat) (find_out : Nat → Bool)
    (client : Option (Nat → Bool)) (tx h : Nat) :
    check_funding_lect cfg_funding find_out client tx ≠
      Outcome.error (HandlerError.lectNotFound h) := by
  unfold check_funding_lect
  split
  · intro hc; cases hc
  · split
    · intro hc; cases hc
    · split
      · split
        · intro hc; cases hc
        · intro hc; cases hc
      · intro hc; cases hc

theorem check_anchoring_lect_no_lect_not_found (client : Option (Nat → Bool)) (tx h : Nat) :
    check_anchoring_lect client tx ≠ Outcome.error (HandlerError.lectNotFound h) := by
  unfold check_anchoring_lect
  split
  · split
    · intro hc; cases hc
    · intro hc; cases hc
  · intro hc; cases hc

/-- C6: when the audit check runs (height divisible by
`check_lect_frequency`), `handle_auditing_state` fails with
`LectNotFound(height)` exactly when no single transaction is recorded as the
latest LECT by at least a quorum (`majority_count`) of validators, the
reported height being `nearest_anchoring_height` of the current height; and
when a quorum LECT exists but is neither an anchoring nor a funding
transaction, it fails with `IncorrectLect` naming that transaction. -/
theorem C6_audit_quorum_lect (check_lect_frequency frequency height : Nat)
    (lects : List (Option Nat)) (kind_of : Nat → TxKind)
    (cfg_funding : Nat) (find_out : Nat → Bool) (client : Option (Nat → Bool))
    (hfreq : height % check_lect_frequency = 0) :
    (handle_auditing_state check_lect_frequency frequency height lects kind_of
        cfg_funding find_out client =
      Outcome.error (HandlerError.lectNotFound (nearest_anchoring_height frequency height)) ↔
      ∀ tx, lects.count (some tx) < majority_count lects.length) ∧
    (∀ tx, majority_count lects.length ≤ lects.count (some tx) →
      kind_of tx = TxKind.other →
      handle_auditing_state check_lect_frequency frequency height lects kind_of
          cfg_funding find_out client =
        Outcome.error (HandlerError.incorrectLect LectReason.incorrectLectTransaction tx)) := by
  have hcand : ∀ tx, (lects.filterMap id).count tx = lects.count (some tx) :=
    count_filterMap_id lects
  have hlenle : (lects.filterMap id).length ≤ lects.length :=
    List.length_filterMap_le id lects
  have hmpos : 1 ≤ majority_count lects.length := majority_count_pos lects.length
  have hdouble : lects.length < 2 * majority_count lects.length :=
    majority_count_double lects.length
  have hmem : ∀ tx, majority_count lects.length ≤ lects.count (some tx) →
      tx ∈ lects.filterMap id := by
    intro tx htx
    have hpos : 0 < (lects.filterMap id).count tx := by
      rw [hcand tx]; omega
    exact List.count_pos_iff_mem.mp hpos
  cases hbest : best_by (fun tx => (lects.filterMap id).count tx) (lects.filterMap id) with
  | none =>
    have hempty : lects.filterMap id = [] := best_by_none _ _ hbest
    have hzero : ∀ tx : Nat, lects.count (some tx) = 0 := by
      intro tx
      rw [← hcand tx, hempty]
      rfl
    have hsel : select_lect lects kind_of = Outcome.ok LectKind.none := by
      simp [select_lect, hbest]
    have hh : handle_auditing_state check_lect_frequency frequency height lects kind_of
        cfg_funding find_out client =
        Outcome.error (HandlerError.lectNotFound (nearest_anchoring_height frequency height)) := by
      simp [handle_auditing_state, hfreq, hsel]
    refine ⟨?_, ?_⟩
    · rw [hh]
      exact ⟨fun _ tx => by rw [hzero tx]; omega, fun _ => rfl⟩
    · intro tx htx _
      rw [hzero tx] at htx
      omega
  | some lect =>
    by_cases hq : majority_count lects.length ≤ (lects.filterMap id).count lect
    · have hne : handle_auditing_state check_lect_frequency frequency height lects kind_of
          cfg_funding find_out client ≠
          Outcome.error (HandlerError.lectNotFound (nearest_anchoring_height frequency height)) := by
        cases hkind : kind_of lect with
        | anchoring =>
          have hsel : select_lect lects kind_of = Outcome.ok (LectKind.anchoring lect) := by
            simp [select_lect, hbest, hq, hkind]
          have hh : handle_auditing_state check_lect_frequency frequency height lects kind_of
              cfg_funding find_out client = check_anchoring_lect client lect := by
            simp [handle_auditing_state, hfreq, hsel]
          rw [hh]
          exact check_anchoring_lect_no_lect_not_found client lect _
        | fundingTx =>
          have hsel : select_lect lects kind_of = Outcome.ok (LectKind.funding lect) := by
            simp [select_lect, hbest, hq, hkind]
          have hh : handle_auditing_state check_lect_frequency frequency height lects kind_of
              cfg_funding find_out client = check_funding_lect cfg_funding find_out client lect := by
            simp [handle_auditing_state, hfreq, hsel]
          rw [hh]
          exact check_funding_lect_no_lect_not_found cfg_funding find_out client lect _
        | other =>
          have hsel : select_lect lects kind_of =
              Outcome.error (HandlerError.incorrectLect LectReason.incorrectLectTransaction lect) := by
            simp [select_lect, hbest, hq, hkind]
          have hh : handle_auditing_state check_lect_frequency frequency height lects kind_of
              cfg_funding find_out client =
              Outcome.error (HandlerError.incorrectLect LectReason.incorrectLectTransaction lect) := by
            simp [handle_auditing_state, hfreq, hsel]
          rw [hh]
          intro hc
          cases hc
      refine ⟨?_, ?_⟩
      · constructor
        · intro hcontra
          exact absurd hcontra hne
        · intro hall
          have := hall lect
          rw [← hcand lect] at this
          omega
      · intro tx htx hkind_tx
        have htxlect : tx = lect := by
          by_contra hne2
          have h1 := count_pair_le tx lect hne2 (lects.filterMap id)
          rw [hcand tx] at h1
          rw [hcand lect] at hq h1
          omega
        subst htxlect
        rw [hcand tx] at hq
        have hsel : select_lect lects kind_of =
            Outcome.error (HandlerError.incorrectLect LectReason.incorrectLectTransaction tx) := by
          simp [select_lect, hbest, hcand tx, hq, hkind_tx]
        simp [handle_auditing_state, hfreq, hsel]
    · have hsel : select_lect lects kind_of = Outcome.ok LectKind.none := by
        simp [select_lect, hbest, hq]
      have hh : handle_auditing_state check_lect_frequency frequency height lects kind_of
          cfg_funding find_out client =
          Outcome.error (HandlerError.lectNotFound (nearest_anchoring_height frequency height)) := by
        simp [handle_auditing_state, hfreq, hsel]
      refine ⟨?_, ?_⟩
      · rw [hh]
        refine ⟨fun _ tx => ?_, fun _ => rfl⟩
        by_cases hmemtx : tx ∈ lects.filterMap id
        · have hlemax := best_by_max _ _ lect hbest tx hmemtx
          simp only at hlemax
          rw [← hcand tx]
          omega
        · rw [← hcand tx, List.count_eq_zero_of_not_mem hmemtx]
          omega
      · intro tx htx _
        have hmemtx := hmem tx htx
        have hlemax := best_by_max _ _ lect hbest tx hmemtx
        simp only at hlemax
        rw [← hcand tx] at htx
        omega

theorem C6_witness :
    handle_auditing_state 30 1000 60 [some 7, some 7, some 7] (fun _ => TxKind.other)
        0 (fun _ => true) none =
      Outcome.error (HandlerError.incorrectLect LectReason.incorrectLectTransaction 7) :=
  (C6_audit_quorum_lect 30 1000 60 [some 7, some 7, some 7] (fun _ => TxKind.other)
    0 (fun _ => true) none (by decide)).2 7 (by decide) rfl

/-! ## Round-trip lemmas for the codec primitives -/

theorem length_encodeLe : ∀ (w n : Nat), (encodeLe w n).length = w := by
  intro w
  induction w with
  | zero => intro n; rfl
  | succ w ih => intro n; simp [encodeLe, ih]

theorem leNat_encodeLe : ∀ (w n : Nat), n < 256 ^ w → leNat (encodeLe w n) = n := by
  intro w
  induction w with
  | zero =>
    intro n h
    have : n = 0 := by simpa using h
    subst this
    rfl
  | succ w ih =>
    intro n h
    have hdiv : n / 256 < 256 ^ w := by
      rw [Nat.div_lt_iff_lt_mul (by omega)]
      calc n < 256 ^ (w + 1) := h
        _ = 256 ^ w * 256 := by rw [Nat.pow_succ]
    simp only [encodeLe, leNat, mkByte, ih (n / 256) hdiv]
    omega

theorem encodeLe_leNat : ∀ (xs : List Byte), encodeLe xs.length (leNat xs) = xs := by
  intro xs
  induction xs with
  | nil => rfl
  | cons b t ih =>
    simp only [List.length_cons, encodeLe, leNat]
    have h1 : mkByte (b.val + 256 * leNat t) = b := by
      apply Fin.ext
      simp only [mkByte]
      have hb := b.isLt
      omega
    have h2 : (b.val + 256 * leNat t) / 256 = leNat t := by
      have hb := b.isLt
      omega
    rw [h1, h2, ih]

theorem leNat_lt : ∀ (xs : List Byte), leNat xs < 256 ^ xs.length := by
  intro xs
  induction xs with
  | nil => simp [leNat]
  | cons b t ih =>
    simp only [leNat, List.length_cons, Nat.pow_succ]
    have hb := b.isLt
    omega

theorem dBytes_encode (xs r : List Byte) : dBytes xs.length (xs ++ r) = some (xs, r) := by
  unfold dBytes
  rw [if_pos (by simp)]
  rw [List.take_left, List.drop_left]

theorem dBytes_eq (n : Nat) (bs xs r : List Byte) (h : dBytes n bs = some (xs, r)) :
    xs.length = n ∧ xs ++ r = bs := by
  unfold dBytes at h
  split at h
  · rename_i hle
    cases h
    exact ⟨List.length_take_of_le hle, List.take_append_drop n bs⟩
  · exact Option.noConfusion h

theorem dLe_encode (w n : Nat) (r : List Byte) (h : n < 256 ^ w) :
    dLe w (encodeLe w n ++ r) = some (n, r) := by
  unfold dLe
  have hb := dBytes_encode (encodeLe w n) r
  rw [length_encodeLe] at hb
  rw [hb]
  simp only [leNat_encodeLe w n h]

theorem dLe_eq (w : Nat) (bs : List Byte) (n : Nat) (r : List Byte)
    (h : dLe w bs = some (n, r)) : encodeLe w n ++ r = bs ∧ n < 256 ^ w := by
  unfold dLe at h
  cases hb : dBytes w bs with
  | none => rw [hb] at h; exact Option.noConfusion h
  | some res =>
    rw [hb] at h
    cases h
    obtain ⟨hlen, happ⟩ := dBytes_eq w bs res.1 res.2 (by rw [hb])
    refine ⟨?_, ?_⟩
    · rw [← hlen, encodeLe_leNat res.1]
      exact happ
    · rw [← hlen]
      exact leNat_lt res.1

theorem dVarInt_encode (n : Nat) (r : List Byte) (h : n < 2 ^ 64) :
    dVarInt (encodeVarInt n ++ r) = some (n, r) := by
  unfold encodeVarInt
  by_cases h1 : n < 0xFD
  · rw [if_pos h1]
    have hval : (mkByte n).val = n := by simp only [mkByte]; omega
    simp only [List.cons_append, List.nil_append, dVarInt, hval]
    rw [if_pos h1]
  · rw [if_neg h1]
    by_cases h2 : n < 0x10000
    · rw [if_pos h2]
      have henc := dLe_encode 2 n r (by norm_num; omega)
      have hval : (mkByte 0xFD).val = 0xFD := by simp only [mkByte]
      simp only [List.cons_append, dVarInt, hval]
      norm_num
      simp only [henc]
      rw [if_neg h1]
    · rw [if_neg h2]
      by_cases h3 : n < 0x100000000
      · rw [if_pos h3]
        have henc := dLe_encode 4 n r (by norm_num; omega)
        have hval : (mkByte 0xFE).val = 0xFE := by simp only [mkByte]
        simp only [List.cons_append, dVarInt, hval]
        norm_num
        simp only [henc]
        rw [if_neg h2]
      · rw [if_neg h3]
        have henc := dLe_encode 8 n r (by norm_num; omega)
        have hval : (mkByte 0xFF).val = 0xFF := by simp only [mkByte]
        simp only [List.cons_append, dVarInt, hval]
        norm_num
        simp only [henc]
        rw [if_neg h3]

theorem dVarInt_eq (bs : List Byte) (n : Nat) (r : List Byte)
    (h : dVarInt bs = some (n, r)) : encodeVarInt n ++ r = bs ∧ n < 2 ^ 64 := by
  cases bs with
  | nil => exact Option.noConfusion h
  | cons b rest =>
    simp only [dVarInt] at h
    split at h
    · rename_i h1
      cases h
      refine ⟨?_, by omega⟩
      unfold encodeVarInt
      rw [if_pos h1]
      have hbb : mkByte b.val = b := by
        apply Fin.ext
        simp only [mkByte]
        have := b.isLt
        omega
      rw [List.cons_append, List.nil_append, hbb]
    · rename_i h1
      split at h
      · rename_i h2
        split at h
        · rename_i nres rres heq
          split at h
          · exact Option.noConfusion h
          · rename_i hmin
            cases h
            obtain ⟨happ, hlt⟩ := dLe_eq 2 rest _ _ heq
            have hlt' : n < 0x10000 := by norm_num at hlt; omega
            refine ⟨?_, by omega⟩
            unfold encodeVarInt
            rw [if_neg hmin, if_pos hlt']
            have hbb : mkByte 0xFD = b := by
              apply Fin.ext
              simp only [mkByte]
              omega
            rw [List.cons_append, hbb, happ]
        · exact Option.noConfusion h
      · rename_i h2
        split at h
        · rename_i h3
          split at h
          · rename_i nres rres heq
            split at h
            · exact Option.noConfusion h
            · rename_i hmin
              cases h
              obtain ⟨happ, hlt⟩ := dLe_eq 4 rest _ _ heq
              have hlt' : n < 0x100000000 := by norm_num at hlt; omega
              refine ⟨?_, by omega⟩
              unfold encodeVarInt
              rw [if_neg (by omega), if_neg hmin, if_pos hlt']
              have hbb : mkByte 0xFE = b := by
                apply Fin.ext
                simp only [mkByte]
                omega
              rw [List.cons_append, hbb, happ]
          · exact Option.noConfusion h
        · rename_i h3
          split at h
          · rename_i nres rres heq
            split at h
            · exact Option.noConfusion h
            · rename_i hmin
              cases h
              obtain ⟨happ, hlt⟩ := dLe_eq 8 rest _ _ heq
              have hlt' : n < 2 ^ 64 := by norm_num at hlt ⊢; omega
              refine ⟨?_, hlt'⟩
              unfold encodeVarInt
              rw [if_neg (by omega), if_neg (by omega), if_neg hmin]
              have hbb : mkByte 0xFF = b := by
                apply Fin.ext
                simp only [mkByte]
                have := b.isLt
                omega
              rw [List.cons_append, hbb, happ]
          · exact Option.noConfusion h

theorem dList_encode {α : Type} (p : List Byte → Option (α × List Byte)) (enc : α → List Byte) :
    ∀ (xs : List α) (r : List Byte),
      (∀ x ∈ xs, ∀ r', p (enc x ++ r') = some (x, r')) →
      dList p xs.length ((xs.map enc).join ++ r) = some (xs, r) := by
  intro xs
  induction xs with
  | nil => intro r _; rfl
  | cons x t ih =>
    intro r hx
    simp only [List.map_cons, List.join_cons, List.length_cons, List.append_assoc]
    simp only [dList, hx x (List.mem_cons_self x t) ((t.map enc).join ++ r)]
    rw [ih r fun y hy r' => hx y (List.mem_cons_of_mem x hy) r']

theorem dList_eq {α : Type} (p : List Byte → Option (α × List Byte)) (enc : α → List Byte)
    (hB : ∀ bs x r, p bs = some (x, r) → enc x ++ r = bs) :
    ∀ (n : Nat) (bs : List Byte) (xs : List α) (r : List Byte),
      dList p n bs = some (xs, r) →
      xs.length = n ∧ (xs.map enc).join ++ r = bs := by
  intro n
  induction n with
  | zero =>
    intro bs xs r h
    simp only [dList] at h
    cases h
    exact ⟨rfl, rfl⟩
  | succ n ih =>
    intro bs xs r h
    simp only [dList] at h
    split at h
    · rename_i x rest heq
      split at h
      · rename_i xs' rest' heq'
        cases h
        obtain ⟨hlen, happ⟩ := ih rest xs' r heq'
        refine ⟨by simp [hlen], ?_⟩
        simp only [List.map_cons, List.join_cons, List.append_assoc]
        rw [happ]
        exact hB bs x rest heq
      · exact Option.noConfusion h
    · exact Option.noConfusion h

theorem dVec_encode {α : Type} (p : List Byte → Option (α × List Byte)) (enc : α → List Byte)
    (xs : List α) (r : List Byte) (hlen : xs.length < 2 ^ 64)
    (hx : ∀ x ∈ xs, ∀ r', p (enc x ++ r') = some (x, r')) :
    dVec p (encodeVec enc xs ++ r) = some (xs, r) := by
  unfold dVec encodeVec
  rw [List.append_assoc]
  simp only [dVarInt_encode xs.length ((xs.map enc).join ++ r) hlen]
  exact dList_encode p enc xs r hx

theorem dVec_eq {α : Type} (p : List Byte → Option (α × List Byte)) (enc : α → List Byte)
    (hB : ∀ bs x r, p bs = some (x, r) → enc x ++ r = bs)
    (bs : List Byte) (xs : List α) (r : List Byte)
    (h : dVec p bs = some (xs, r)) :
    encodeVec enc xs ++ r = bs ∧ xs.length < 2 ^ 64 := by
  unfold dVec at h
  split at h
  · rename_i n rest heq
    obtain ⟨happ, hbound⟩ := dVarInt_eq bs n rest heq
    obtain ⟨hlen, happ'⟩ := dList_eq p enc hB n rest xs r h
    subst hlen
    refine ⟨?_, hbound⟩
    rw [encodeVec, List.append_assoc, happ', happ]
  · exact Option.noConfusion h

theorem dScript_encode (s : List Byte) (r : List Byte) (h : s.length < 2 ^ 64) :
    dScript (encodeScript s ++ r) = some (s, r) := by
  unfold dScript encodeScript
  rw [List.append_assoc]
  simp only [dVarInt_encode s.length (s ++ r) h]
  exact dBytes_encode s r

theorem dScript_eq (bs s r : List Byte) (h : dScript bs = some (s, r)) :
    encodeScript s ++ r = bs ∧ s.length < 2 ^ 64 := by
  unfold dScript at h
  split at h
  · rename_i n rest heq
    obtain ⟨happ, hbound⟩ := dVarInt_eq bs n rest heq
    obtain ⟨hlen, happ'⟩ := dBytes_eq n rest s r h
    subst hlen
    refine ⟨?_, hbound⟩
    rw [encodeScript, List.append_assoc, happ', happ]
  · exact Option.noConfusion h

theorem dOutPoint_encode (o : OutPoint) (r : List Byte) (h : o.wf) :
    dOutPoint (encodeOutPoint o ++ r) = some (o, r) := by
  obtain ⟨hlen, hvout⟩ := h
  unfold dOutPoint encodeOutPoint
  rw [List.append_assoc]
  have hb := dBytes_encode o.txid (encodeLe 4 o.vout ++ r)
  rw [hlen] at hb
  simp only [hb, dLe_encode 4 o.vout r (by norm_num; omega)]

theorem dOutPoint_eq (bs : List Byte) (o : OutPoint) (r : List Byte)
    (h : dOutPoint bs = some (o, r)) : encodeOutPoint o ++ r = bs ∧ o.wf := by
  unfold dOutPoint at h
  split at h
  · rename_i txid rest heq
    split at h
    · rename_i vout rest' heq'
      cases h
      obtain ⟨hlen, happ⟩ := dBytes_eq 32 bs txid rest heq
      obtain ⟨happ', hbound⟩ := dLe_eq 4 rest vout r heq'
      refine ⟨?_, hlen, show vout < 2 ^ 32 by norm_num at hbound; omega⟩
      rw [encodeOutPoint, List.append_assoc]
      show txid ++ (encodeLe 4 vout ++ r) = bs
      rw [happ', happ]
    · exact Option.noConfusion h
  · exact Option.noConfusion h

/-- Clearing an already empty witness is the identity. -/
theorem txin_set_empty (i : TxIn) (h : i.witness = []) :
    TxIn.mk i.previous_output i.script_sig i.sequence [] = i := by
  cases i
  simp_all

/-- The input encoding ignores the witness field. -/
theorem encodeTxIn_set (i : TxIn) (w : List (List Byte)) :
    encodeTxIn (TxIn.mk i.previous_output i.script_sig i.sequence w) = encodeTxIn i := by
  cases i
  rfl

theorem dTxIn_encode (i : TxIn) (r : List Byte) (h : i.wf) :
    dTxIn (encodeTxIn i ++ r) =
      some (TxIn.mk i.previous_output i.script_sig i.sequence [], r) := by
  obtain ⟨hop, hss, hseq, _, _⟩ := h
  unfold dTxIn encodeTxIn
  rw [List.append_assoc, List.append_assoc]
  simp only [dOutPoint_encode i.previous_output _ hop,
    dScript_encode i.script_sig _ hss,
    dLe_encode 4 i.sequence r (by norm_num; omega)]

theorem dTxIn_eq (bs : List Byte) (i : TxIn) (r : List Byte)
    (h : dTxIn bs = some (i, r)) :
    encodeTxIn i ++ r = bs ∧ i.witness = [] ∧ i.previous_output.wf ∧
      i.script_sig.length < 2 ^ 64 ∧ i.sequence < 2 ^ 32 := by
  unfold dTxIn at h
  split at h
  · rename_i po rest heq
    split at h
    · rename_i ss rest' heq'
      split at h
      · rename_i sq rest'' heq''
        cases h
        obtain ⟨happ, hwf⟩ := dOutPoint_eq bs po rest heq
        obtain ⟨happ', hss⟩ := dScript_eq rest ss rest' heq'
        obtain ⟨happ'', hseq⟩ := dLe_eq 4 rest' sq r heq''
        refine ⟨?_, rfl, hwf, hss, show sq < 2 ^ 32 by norm_num at hseq; omega⟩
        rw [encodeTxIn, List.append_assoc, List.append_assoc]
        show encodeOutPoint po ++ (encodeScript ss ++ (encodeLe 4 sq ++ r)) = bs
        rw [happ'', happ', happ]
      · exact Option.noConfusion h
    · exact Option.noConfusion h
  · exact Option.noConfusion h

theorem dTxOut_encode (o : TxOut) (r : List Byte) (h : o.wf) :
    dTxOut (encodeTxOut o ++ r) = some (o, r) := by
  obtain ⟨hval, hs⟩ := h
  unfold dTxOut encodeTxOut
  rw [List.append_assoc]
  simp only [dLe_encode 8 o.value _ (by norm_num; omega),
    dScript_encode o.script_pubkey r hs]

theorem dTxOut_eq (bs : List Byte) (o : TxOut) (r : List Byte)
    (h : dTxOut bs = some (o, r)) : encodeTxOut o ++ r = bs ∧ o.wf := by
  unfold dTxOut at h
  split at h
  · rename_i v rest heq
    split at h
    · rename_i s rest' heq'
      cases h
      obtain ⟨happ, hv⟩ := dLe_eq 8 bs v rest heq
      obtain ⟨happ', hs⟩ := dScript_eq rest s r heq'
      refine ⟨?_, show v < 2 ^ 64 by norm_num at hv ⊢; omega, hs⟩
      rw [encodeTxOut, List.append_assoc]
      show encodeLe 8 v ++ (encodeScript s ++ r) = bs
      rw [happ', happ]
    · exact Option.noConfusion h
  · exact Option.noConfusion h

theorem dWitness_encode (w : List (List Byte)) (r : List Byte)
    (hlen : w.length < 2 ^ 64) (hitem : ∀ item ∈ w, item.length < 2 ^ 64) :
    dWitness (encodeWitness w ++ r) = some (w, r) := by
  unfold dWitness encodeWitness
  exact dVec_encode dScript encodeScript w r hlen
    fun item hmem r' => dScript_encode item r' (hitem item hmem)

theorem dWitness_eq (bs : List Byte) (w : List (List Byte)) (r : List Byte)
    (h : dWitness bs = some (w, r)) : encodeWitness w ++ r = bs := by
  unfold dWitness at h
  exact (dVec_eq dScript encodeScript
    (fun bs' s r' h' => (dScript_eq bs' s r' h').1) bs w r h).1

theorem dVec_marker {α : Type} (p : List Byte → Option (α × List Byte)) (l : List Byte) :
    dVec p (mkByte 0 :: l) = some ([], l) := by
  have h0 : (mkByte 0).val = 0 := rfl
  simp only [dVec, dVarInt, h0]
  norm_num
  rfl

theorem txin_clear_wf (i : TxIn) (h : i.wf) :
    (TxIn.mk i.previous_output i.script_sig i.sequence []).wf := by
  obtain ⟨hop, hss, hseq, _, _⟩ := h
  refine ⟨hop, hss, hseq, by norm_num, by simp⟩

theorem encodeVec_clear (input : List TxIn) :
    encodeVec encodeTxIn (input.map fun i =>
      TxIn.mk i.previous_output i.script_sig i.sequence []) =
    encodeVec encodeTxIn input := by
  unfold encodeVec
  rw [List.length_map, List.map_map]
  have hmap : ∀ i : TxIn,
      (encodeTxIn ∘ fun i => TxIn.mk i.previous_output i.script_sig i.sequence []) i =
        encodeTxIn i := fun i => encodeTxIn_set i []
  rw [List.map_congr_left fun i _ => hmap i]

theorem zipWith_restore (input : List TxIn) :
    List.zipWith (fun i w => TxIn.mk i.previous_output i.script_sig i.sequence w)
      (input.map fun i => TxIn.mk i.previous_output i.script_sig i.sequence [])
      (input.map fun i => i.witness) = input := by
  induction input with
  | nil => rfl
  | cons i t ih => simp [ih]

theorem txHasWitness_false (tx : Transaction) (h : txHasWitness tx = false) :
    tx.input.isEmpty = false ∧ ∀ i ∈ tx.input, i.witness = [] := by
  unfold txHasWitness at h
  rw [Bool.or_eq_false_iff] at h
  obtain ⟨h1, h2⟩ := h
  refine ⟨h1, fun i hi => ?_⟩
  rw [List.any_eq_false] at h2
  have hne := h2 i hi
  cases hb : i.witness.isEmpty with
  | true => exact List.isEmpty_iff.mp hb
  | false => rw [hb] at hne; simp at hne

theorem segwit_guard_false (tx : Transaction) (h : txHasWitness tx = true) :
    (!tx.input.isEmpty && tx.input.all fun i => i.witness.isEmpty) = false := by
  unfold txHasWitness at h
  cases h1 : tx.input.isEmpty with
  | true => simp [h1]
  | false =>
    rw [h1] at h
    simp only [Bool.false_or, List.any_eq_true, Bool.not_eq_true'] at h
    obtain ⟨i, hi, hw⟩ := h
    have hall : tx.input.all (fun i => i.witness.isEmpty) = false := by
      rw [List.all_eq_false]
      exact ⟨i, hi, by simp [hw]⟩
    simp [hall]

theorem decodeTx_encodeTx (tx : Transaction) (h : tx.wf) (r : List Byte) :
    decodeTx (consensusEncodeTx tx ++ r) = some (tx, r) := by
  obtain ⟨hver, hlock, hinlen, houtlen, hinwf, houtwf⟩ := h
  by_cases hw : txHasWitness tx = true
  · have e1 : dLe 4 (encodeLe 4 tx.version ++
        (mkByte 0 :: mkByte 1 ::
          (encodeVec encodeTxIn tx.input ++
            (encodeVec encodeTxOut tx.output ++
              ((tx.input.map fun i => encodeWitness i.witness).join ++
                (encodeLe 4 tx.lock_time ++ r)))))) =
        some (tx.version, mkByte 0 :: mkByte 1 ::
          (encodeVec encodeTxIn tx.input ++
            (encodeVec encodeTxOut tx.output ++
              ((tx.input.map fun i => encodeWitness i.witness).join ++
                (encodeLe 4 tx.lock_time ++ r))))) :=
      dLe_encode 4 tx.version _ (by norm_num; omega)
    have e2 : dVec dTxIn (mkByte 0 :: mkByte 1 ::
        (encodeVec encodeTxIn tx.input ++
          (encodeVec encodeTxOut tx.output ++
            ((tx.input.map fun i => encodeWitness i.witness).join ++
              (encodeLe 4 tx.lock_time ++ r))))) =
        some ([], mkByte 1 ::
          (encodeVec encodeTxIn tx.input ++
            (encodeVec encodeTxOut tx.output ++
              ((tx.input.map fun i => encodeWitness i.witness).join ++
                (encodeLe 4 tx.lock_time ++ r))))) := dVec_marker _ _
    have e5 : dVec dTxIn
        (encodeVec encodeTxIn tx.input ++
          (encodeVec encodeTxOut tx.output ++
            ((tx.input.map fun i => encodeWitness i.witness).join ++
              (encodeLe 4 tx.lock_time ++ r)))) =
        some (tx.input.map fun i => TxIn.mk i.previous_output i.script_sig i.sequence [],
          encodeVec encodeTxOut tx.output ++
            ((tx.input.map fun i => encodeWitness i.witness).join ++
              (encodeLe 4 tx.lock_time ++ r))) := by
      rw [← encodeVec_clear tx.input]
      apply dVec_encode dTxIn encodeTxIn
      · rw [List.length_map]; exact hinlen
      · intro j hj r'
        obtain ⟨i, hi, hij⟩ := List.mem_map.mp hj
        have hjwf : j.wf := by rw [← hij]; exact txin_clear_wf i (hinwf i hi)
        have := dTxIn_encode j r' hjwf
        have hjj : TxIn.mk j.previous_output j.script_sig j.sequence [] = j := by
          apply txin_set_empty
          rw [← hij]
        rw [hjj] at this
        exact this
    have e6 : dVec dTxOut
        (encodeVec encodeTxOut tx.output ++
          ((tx.input.map fun i => encodeWitness i.witness).join ++
            (encodeLe 4 tx.lock_time ++ r))) =
        some (tx.output,
          (tx.input.map fun i => encodeWitness i.witness).join ++
            (encodeLe 4 tx.lock_time ++ r)) :=
      dVec_encode dTxOut encodeTxOut tx.output _ houtlen
        fun o ho r' => dTxOut_encode o r' (houtwf o ho)
    have e7 : dList dWitness
        (tx.input.map fun i => TxIn.mk i.previous_output i.script_sig i.sequence []).length
        ((tx.input.map fun i => encodeWitness i.witness).join ++
          (encodeLe 4 tx.lock_time ++ r)) =
        some (tx.input.map fun i => i.witness, encodeLe 4 tx.lock_time ++ r) := by
      have hx : ∀ w ∈ tx.input.map fun i => i.witness, ∀ r',
          dWitness (encodeWitness w ++ r') = some (w, r') := by
        intro w hwm r'
        obtain ⟨i, hi, hiw⟩ := List.mem_map.mp hwm
        obtain ⟨_, _, _, hwl, hwi⟩ := hinwf i hi
        rw [← hiw]
        exact dWitness_encode i.witness r' hwl hwi
      have := dList_encode dWitness encodeWitness (tx.input.map fun i => i.witness)
        (encodeLe 4 tx.lock_time ++ r) hx
      simp only [List.length_map, List.map_map, Function.comp] at this ⊢
      exact this
    have e8 : List.zipWith (fun i w => TxIn.mk i.previous_output i.script_sig i.sequence w)
        (tx.input.map fun i => TxIn.mk i.previous_output i.script_sig i.sequence [])
        (tx.input.map fun i => i.witness) = tx.input := zipWith_restore tx.input
    have e9 := segwit_guard_false tx hw
    have e10 : dLe 4 (encodeLe 4 tx.lock_time ++ r) = some (tx.lock_time, r) :=
      dLe_encode 4 tx.lock_time r (by norm_num; omega)
    have heta : Transaction.mk tx.version tx.input tx.output tx.lock_time = tx := rfl
    unfold consensusEncodeTx
    rw [if_pos hw]
    simp only [List.append_assoc, List.cons_append]
    simp only [decodeTx, e1, e2, List.isEmpty_nil, if_true, e5, e6, e7, e8, e9, e10, heta]
    norm_num [mkByte]
  · have hwfalse : txHasWitness tx = false := by
      cases hb : txHasWitness tx
      · rfl
      · exact absurd hb hw
    obtain ⟨hne, hwit⟩ := txHasWitness_false tx hwfalse
    have l1 : dLe 4 (encodeLe 4 tx.version ++
        (encodeVec encodeTxIn tx.input ++
          (encodeVec encodeTxOut tx.output ++ (encodeLe 4 tx.lock_time ++ r)))) =
        some (tx.version,
          encodeVec encodeTxIn tx.input ++
            (encodeVec encodeTxOut tx.output ++ (encodeLe 4 tx.lock_time ++ r))) :=
      dLe_encode 4 tx.version _ (by norm_num; omega)
    have l2 : dVec dTxIn
        (encodeVec encodeTxIn tx.input ++
          (encodeVec encodeTxOut tx.output ++ (encodeLe 4 tx.lock_time ++ r))) =
        some (tx.input,
          encodeVec encodeTxOut tx.output ++ (encodeLe 4 tx.lock_time ++ r)) := by
      apply dVec_encode dTxIn encodeTxIn tx.input _ hinlen
      intro i hi r'
      have := dTxIn_encode i r' (hinwf i hi)
      rw [txin_set_empty i (hwit i hi)] at this
      exact this
    have l4 : dVec dTxOut
        (encodeVec encodeTxOut tx.output ++ (encodeLe 4 tx.lock_time ++ r)) =
        some (tx.output, encodeLe 4 tx.lock_time ++ r) :=
      dVec_encode dTxOut encodeTxOut tx.output _ houtlen
        fun o ho r' => dTxOut_encode o r' (houtwf o ho)
    have l5 : dLe 4 (encodeLe 4 tx.lock_time ++ r) = some (tx.lock_time, r) :=
      dLe_encode 4 tx.lock_time r (by norm_num; omega)
    have heta : Transaction.mk tx.version tx.input tx.output tx.lock_time = tx := rfl
    unfold consensusEncodeTx
    rw [if_neg (by rw [hwfalse]; exact Bool.false_ne_true)]
    simp only [List.append_assoc]
    simp only [decodeTx, l1, l2, hne, Bool.false_eq_true, if_false, l4, l5, heta]

theorem dList_forall {α : Type} (p : List Byte → Option (α × List Byte)) (P : α → Prop)
    (hP : ∀ bs x r, p bs = some (x, r) → P x) :
    ∀ (n : Nat) (bs : List Byte) (xs : List α) (r : List Byte),
      dList p n bs = some (xs, r) → ∀ x ∈ xs, P x := by
  intro n
  induction n with
  | zero =>
    intro bs xs r h x hx
    simp only [dList] at h
    cases h
    exact absurd hx (List.not_mem_nil x)
  | succ n ih =>
    intro bs xs r h x hx
    simp only [dList] at h
    split at h
    · rename_i y rest heq
      split at h
      · rename_i ys rest' heq'
        cases h
        rcases List.mem_cons.mp hx with hxy | hxr
        · rw [hxy]; exact hP bs y rest heq
        · exact ih rest ys r heq' x hxr
      · exact Option.noConfusion h
    · exact Option.noConfusion h

theorem dVec_forall {α : Type} (p : List Byte → Option (α × List Byte)) (P : α → Prop)
    (hP : ∀ bs x r, p bs = some (x, r) → P x)
    (bs : List Byte) (xs : List α) (r : List Byte)
    (h : dVec p bs = some (xs, r)) : ∀ x ∈ xs, P x := by
  unfold dVec at h
  split at h
  · rename_i n rest heq
    exact dList_forall p P hP n rest xs r h
  · exact Option.noConfusion h

theorem txHasWitness_eq_false (tx : Transaction) (hne : tx.input.isEmpty = false)
    (hwit : ∀ i ∈ tx.input, i.witness = []) : txHasWitness tx = false := by
  unfold txHasWitness
  rw [hne, Bool.false_or, List.any_eq_false]
  intro i hi
  simp [hwit i hi]

theorem txHasWitness_of_guard (tx : Transaction)
    (h : (!tx.input.isEmpty && tx.input.all fun i => i.witness.isEmpty) = false) :
    txHasWitness tx = true := by
  unfold txHasWitness
  cases hb : tx.input.isEmpty with
  | true => simp [hb]
  | false =>
    rw [hb] at h
    simp only [Bool.not_false, Bool.true_and] at h
    rw [List.all_eq_false] at h
    obtain ⟨i, hi, hwi⟩ := h
    simp only [Bool.false_or]
    rw [List.any_eq_true]
    exact ⟨i, hi, by simpa using hwi⟩

theorem zipWith_set_proj :
    ∀ (ins : List TxIn) (ws : List (List (List Byte))), ins.length = ws.length →
      (List.zipWith (fun i w => TxIn.mk i.previous_output i.script_sig i.sequence w)
        ins ws).map (fun i => i.witness) = ws := by
  intro ins
  induction ins with
  | nil =>
    intro ws h
    cases ws with
    | nil => rfl
    | cons w ws' => simp at h
  | cons i t ih =>
    intro ws h
    cases ws with
    | nil => simp at h
    | cons w ws' =>
      simp only [List.zipWith_cons_cons, List.map_cons]
      rw [ih ws' (by simpa using h)]

theorem zipWith_set_map_encode :
    ∀ (ins : List TxIn) (ws : List (List (List Byte))), ins.length = ws.length →
      (List.zipWith (fun i w => TxIn.mk i.previous_output i.script_sig i.sequence w)
        ins ws).map encodeTxIn = ins.map encodeTxIn := by
  intro ins
  induction ins with
  | nil => intro ws _; cases ws <;> rfl
  | cons i t ih =>
    intro ws h
    cases ws with
    | nil => simp at h
    | cons w ws' =>
      simp only [List.zipWith_cons_cons, List.map_cons]
      rw [ih ws' (by simpa using h), encodeTxIn_set]

theorem zipWith_set_length (ins : List TxIn) (ws : List (List (List Byte)))
    (h : ins.length = ws.length) :
    (List.zipWith (fun i w => TxIn.mk i.previous_output i.script_sig i.sequence w)
      ins ws).length = ins.length := by
  rw [List.length_zipWith]
  omega

theorem encodeVec_nil {α : Type} (enc : α → List Byte) :
    encodeVec enc ([] : List α) = [mkByte 0] := by
  unfold encodeVec encodeVarInt
  norm_num

theorem encodeVec_zipWith_set (ins : List TxIn) (ws : List (List (List Byte)))
    (h : ins.length = ws.length) :
    encodeVec encodeTxIn
      (List.zipWith (fun i w => TxIn.mk i.previous_output i.script_sig i.sequence w) ins ws) =
    encodeVec encodeTxIn ins := by
  unfold encodeVec
  rw [zipWith_set_length ins ws h, zipWith_set_map_encode ins ws h]

theorem encodeTx_decodeTx (bs : List Byte) (tx : Transaction) (r : List Byte)
    (h : decodeTx bs = some (tx, r)) : consensusEncodeTx tx ++ r = bs := by
  unfold decodeTx at h
  split at h
  · exact Option.noConfusion h
  · rename_i version r0 heq1
    split at h
    · exact Option.noConfusion h
    · rename_i ins r1 heq2
      split at h
      · rename_i hempty
        split at h
        · exact Option.noConfusion h
        · rename_i flag r2
          split at h
          · rename_i hflag
            split at h
            · exact Option.noConfusion h
            · rename_i input0 r3 heq5
              split at h
              · exact Option.noConfusion h
              · rename_i output r4 heq6
                split at h
                · exact Option.noConfusion h
                · rename_i wits r5 heq7
                  split at h
                  · exact Option.noConfusion h
                  · rename_i hguard
                    split at h
                    · exact Option.noConfusion h
                    · rename_i lock_time r6 heq8
                      simp only [Option.some.injEq, Prod.mk.injEq] at h
                      obtain ⟨h1, h2⟩ := h
                      subst h1
                      rw [← h2]
                      have hins : ins = [] := List.isEmpty_iff.mp hempty
                      subst hins
                      have hbs : encodeLe 4 version ++ r0 = bs := (dLe_eq 4 bs version r0 heq1).1
                      have hr0 : encodeVec encodeTxIn ([] : List TxIn) ++ flag :: r2 = r0 :=
                        (dVec_eq dTxIn encodeTxIn
                          (fun b x rr hh => (dTxIn_eq b x rr hh).1) r0 [] (flag :: r2) heq2).1
                      rw [encodeVec_nil, List.cons_append, List.nil_append] at hr0
                      have hflagb : flag = mkByte 1 := by
                        apply Fin.ext
                        simp only [mkByte]
                        omega
                      have hr2 : encodeVec encodeTxIn input0 ++ r3 = r2 :=
                        (dVec_eq dTxIn encodeTxIn
                          (fun b x rr hh => (dTxIn_eq b x rr hh).1) r2 input0 r3 heq5).1
                      have hr3 : encodeVec encodeTxOut output ++ r4 = r3 :=
                        (dVec_eq dTxOut encodeTxOut
                          (fun b x rr hh => (dTxOut_eq b x rr hh).1) r3 output r4 heq6).1
                      obtain ⟨hlenw, hr4⟩ :=
                        dList_eq dWitness encodeWitness
                          (fun b x rr hh => dWitness_eq b x rr hh) input0.length r4 wits r5 heq7
                      have hlen0 : input0.length = wits.length := hlenw.symm
                      have hproj := zipWith_set_proj input0 wits hlen0
                      have hencv := encodeVec_zipWith_set input0 wits hlen0
                      have hguardf := Bool.eq_false_iff.mpr hguard
                      have hwt : txHasWitness
                          (Transaction.mk version
                            (List.zipWith (fun i w =>
                              TxIn.mk i.previous_output i.script_sig i.sequence w) input0 wits)
                            output lock_time) = true :=
                        txHasWitness_of_guard _ hguardf
                      have hCr : encodeLe 4 lock_time ++ r6 = r5 := (dLe_eq 4 r5 lock_time r6 heq8).1
                      have hjoin : (List.zipWith (fun i w =>
                            TxIn.mk i.previous_output i.script_sig i.sequence w) input0 wits).map
                            (fun i => encodeWitness i.witness) = wits.map encodeWitness := by
                        conv_rhs => rw [← hproj]
                        rw [List.map_map]
                        rfl
                      unfold consensusEncodeTx
                      rw [if_pos hwt]
                      dsimp only
                      simp only [List.append_assoc, List.cons_append]
                      rw [hencv, hjoin, hCr, hr4, hr3, hr2, ← hflagb, hr0]
                      exact hbs
          · exact Option.noConfusion h
      · rename_i hempty
        split at h
        · exact Option.noConfusion h
        · rename_i output r2 heq4
          split at h
          · exact Option.noConfusion h
          · rename_i lock_time r3 heq5
            simp only [Option.some.injEq, Prod.mk.injEq] at h
            obtain ⟨h1, h2⟩ := h
            subst h1
            rw [← h2]
            have hbs : encodeLe 4 version ++ r0 = bs := (dLe_eq 4 bs version r0 heq1).1
            have hr0 : encodeVec encodeTxIn ins ++ r1 = r0 :=
              (dVec_eq dTxIn encodeTxIn
                (fun b x rr hh => (dTxIn_eq b x rr hh).1) r0 ins r1 heq2).1
            have hr1 : encodeVec encodeTxOut output ++ r2 = r1 :=
              (dVec_eq dTxOut encodeTxOut
                (fun b x rr hh => (dTxOut_eq b x rr hh).1) r1 output r2 heq4).1
            have hr2 : encodeLe 4 lock_time ++ r3 = r2 := (dLe_eq 4 r2 lock_time r3 heq5).1
            have hwitins : ∀ i ∈ ins, i.witness = [] :=
              dVec_forall dTxIn (fun i => i.witness = [])
                (fun b x rr hh => (dTxIn_eq b x rr hh).2.1) r0 ins r1 heq2
            have hinsne : ins.isEmpty = false := Bool.eq_false_iff.mpr hempty
            have hwf : txHasWitness (Transaction.mk version ins output lock_time) = false :=
              txHasWitness_eq_false _ hinsne hwitins
            unfold consensusEncodeTx
            rw [if_neg (by rw [hwf]; exact Bool.false_ne_true)]
            dsimp only
            simp only [List.append_assoc]
            rw [hr2, hr1, hr0]
            exact hbs

/-! ## Hex codec lemmas -/

theorem hexDigitValue_char (n : Nat) (h : n < 16) :
    hexDigitValue (hexDigitChar n) = some n := by
  unfold hexDigitChar hexDigitValue
  by_cases h10 : n < 10
  · rw [if_pos h10, if_pos (by omega : 48 ≤ n + 48 ∧ n + 48 ≤ 57)]
    simp
  · rw [if_neg h10, if_neg (by omega : ¬(48 ≤ n + 87 ∧ n + 87 ≤ 57)),
      if_pos (by omega : 97 ≤ n + 87 ∧ n + 87 ≤ 102)]
    simp

theorem hexDigitValue_lt (c v : Nat) (h : hexDigitValue c = some v) : v < 16 := by
  unfold hexDigitValue at h
  split at h
  · cases h; omega
  · split at h
    · cases h; omega
    · split at h
      · cases h; omega
      · exact Option.noConfusion h

theorem hexDigitChar_value (c v : Nat)
    (hlow : (48 ≤ c ∧ c ≤ 57) ∨ (97 ≤ c ∧ c ≤ 102))
    (h : hexDigitValue c = some v) : hexDigitChar v = c := by
  unfold hexDigitValue at h
  unfold hexDigitChar
  rcases hlow with h1 | h1
  · rw [if_pos h1] at h
    cases h
    rw [if_pos (by omega)]
    omega
  · rw [if_neg (by omega), if_pos h1] at h
    cases h
    rw [if_neg (by omega)]
    omega

theorem hexDecode_encode : ∀ (bs : List Byte), hexDecode (hexEncode bs) = some bs := by
  intro bs
  induction bs with
  | nil => rfl
  | cons b t ih =>
    have hcons : hexEncode (b :: t) =
        hexDigitChar (b.val / 16) :: hexDigitChar (b.val % 16) :: hexEncode t := by
      simp [hexEncode]
    have hb : mkByte (b.val / 16 * 16 + b.val % 16) = b := by
      apply Fin.ext
      simp only [mkByte]
      have := b.isLt
      omega
    rw [hcons]
    unfold hexDecode
    simp only [hexDigitValue_char (b.val / 16) (by have := b.isLt; omega),
      hexDigitValue_char (b.val % 16) (by omega), ih, hb]

theorem hexEncode_decode : ∀ (bs : List Byte) (s : List Nat),
    hexDecode s = some bs → isLowerHexString s = true → hexEncode bs = s := by
  intro bs
  induction bs with
  | nil =>
    intro s h _
    match s with
    | [] => rfl
    | [c] => exact Option.noConfusion h
    | c1 :: c2 :: rest =>
      unfold hexDecode at h
      split at h
      · exact absurd (Option.some.inj h) (by simp)
      · exact Option.noConfusion h
  | cons b t ih =>
    intro s h hlow
    match s with
    | [] => exact List.noConfusion (Option.some.inj h)
    | [c] => exact Option.noConfusion h
    | c1 :: c2 :: rest =>
      unfold hexDecode at h
      split at h
      · rename_i hm vh vl bs' hv1 hv2 hd
        have hinj := Option.some.inj h
        have hb : mkByte (vh * 16 + vl) = b := (List.cons.inj hinj).1
        have ht : bs' = t := (List.cons.inj hinj).2
        simp only [isLowerHexString, List.all_cons, Bool.and_eq_true] at hlow
        obtain ⟨hl1, hl2, hl3⟩ := hlow
        have hvh := hexDigitValue_lt c1 vh hv1
        have hvl := hexDigitValue_lt c2 vl hv2
        have hbval : b.val = vh * 16 + vl := by
          rw [← hb]
          simp only [mkByte]
          omega
        have hcons : hexEncode (b :: t) =
            hexDigitChar (b.val / 16) :: hexDigitChar (b.val % 16) :: hexEncode t := by
          simp [hexEncode]
        rw [hcons]
        have hdiv : b.val / 16 = vh := by omega
        have hmod : b.val % 16 = vl := by omega
        rw [hdiv, hmod]
        rw [hexDigitChar_value c1 vh (by
          simp only [Bool.or_eq_true, Bool.and_eq_true, decide_eq_true_eq] at hl1
          omega) hv1]
        rw [hexDigitChar_value c2 vl (by
          simp only [Bool.or_eq_true, Bool.and_eq_true, decide_eq_true_eq] at hl2
          omega) hv2]
        rw [ih rest (by rw [ht] at hd; exact hd) (by
          simp only [isLowerHexString]
          exact hl3)]
      · exact Option.noConfusion h

theorem transaction_from_bytes_to_bytes (tx : Transaction) (hwf : tx.wf) :
    transaction_from_bytes (transaction_to_bytes tx) = some tx := by
  unfold transaction_from_bytes transaction_to_bytes
  have h := decodeTx_encodeTx tx hwf []
  rw [List.append_nil] at h
  simp [h]

theorem transaction_to_bytes_from_bytes (bs : List Byte) (tx : Transaction)
    (h : transaction_from_bytes bs = some tx) : transaction_to_bytes tx = bs := by
  unfold transaction_from_bytes at h
  split at h
  · rename_i tx' rest heq
    split at h
    · rename_i hrest
      cases h
      subst hrest
      have := encodeTx_decodeTx bs tx [] heq
      rw [List.append_nil] at this
      exact this
    · exact Option.noConfusion h
  · exact Option.noConfusion h

/-- C7: the `btc::Transaction` wrapper codecs round-trip, with one amendment
for case: for the consensus-binary (`BinaryValue`) and protobuf codecs,
`parse(encode(x)) = x` for every well-formed transaction and
`encode(parse(b)) = b` for every well-formed input; for the hex codec,
`parse(encode(x)) = x` always holds, but `encode(parse(b)) = b` holds only
for lower-case hex inputs, because `hex::decode` also accepts upper-case
digits while `encode_hex` always emits lower-case ones (see the
counterexample). -/
theorem C7_codec_round_trip (tx : Transaction) (hwf : tx.wf) :
    transaction_from_bytes (transaction_to_bytes tx) = some tx ∧
    (∀ bs tx2, transaction_from_bytes bs = some tx2 → transaction_to_bytes tx2 = bs) ∧
    transaction_from_hex (transaction_to_hex tx) = some tx ∧
    (∀ s tx2, transaction_from_hex s = some tx2 → isLowerHexString s = true →
      transaction_to_hex tx2 = s) ∧
    transaction_from_pb (transaction_to_pb tx) = some tx ∧
    (∀ pb tx2, transaction_from_pb pb = some tx2 → transaction_to_pb tx2 = pb) := by
  refine ⟨transaction_from_bytes_to_bytes tx hwf,
    fun bs tx2 h => transaction_to_bytes_from_bytes bs tx2 h, ?_, ?_, ?_, ?_⟩
  · unfold transaction_from_hex transaction_to_hex
    rw [hexDecode_encode]
    exact transaction_from_bytes_to_bytes tx hwf
  · intro s tx2 h hlow
    unfold transaction_from_hex at h
    split at h
    · rename_i bs0 heq
      have hbytes := transaction_to_bytes_from_bytes bs0 tx2 h
      unfold transaction_to_hex
      unfold transaction_to_bytes at hbytes
      rw [hbytes]
      exact hexEncode_decode bs0 s heq hlow
    · exact Option.noConfusion h
  · unfold transaction_from_pb transaction_to_pb
    exact transaction_from_bytes_to_bytes tx hwf
  · intro pb tx2 h
    unfold transaction_from_pb at h
    have hbytes := transaction_to_bytes_from_bytes pb.data tx2 h
    unfold transaction_to_pb
    unfold transaction_to_bytes at hbytes
    rw [hbytes]

/-- Fixture for the C7 witness and counterexample: a minimal legacy
transaction (one input spending a null outpoint, no outputs). -/
def c7_tx : Transaction :=
  Transaction.mk 1
    [TxIn.mk (OutPoint.mk (List.replicate 32 (mkByte 0)) 0xFFFFFFFF) [] 0xFFFFFFFF []]
    [] 0

theorem C7_witness :
    transaction_from_bytes (transaction_to_bytes c7_tx) = some c7_tx ∧
    transaction_from_hex (transaction_to_hex c7_tx) = some c7_tx ∧
    transaction_from_pb (transaction_to_pb c7_tx) = some c7_tx :=
  ⟨(C7_codec_round_trip c7_tx (by decide)).1,
   (C7_codec_round_trip c7_tx (by decide)).2.2.1,
   (C7_codec_round_trip c7_tx (by decide)).2.2.2.2.1⟩

/-- Fixture for the C7 counterexample: the hex form of `c7_tx` with every
`f` digit (ASCII 102) replaced by `F` (ASCII 70). -/
def c7c_hex : List Nat :=
  (transaction_to_hex c7_tx).map fun c => if c = 102 then 70 else c

/-- C7 counterexample: an upper-case hex string is a well-formed input to the
wrapper's `FromHex` (it decodes to `c7_tx`), but re-encoding emits lower-case
hex, so `encode(parse(b)) = b` fails for the hex codec on this input. -/
theorem C7_counterexample :
    transaction_from_hex c7c_hex = some c7_tx ∧
    transaction_to_hex c7_tx ≠ c7c_hex := by
  constructor
  · decide
  · decide

/-- Fixture for the C8 witness. -/
def c8_tx : Transaction :=
  Transaction.mk 2
    [TxIn.mk (OutPoint.mk (List.replicate 32 (mkByte 7)) 0) [] 0 []]
    [TxOut.mk 5000 [mkByte 0x51]] 0

/-- C8: the wrapper's stable content hash `object_hash` is exactly SHA-256 of
its consensus-binary serialization (`BinaryValue::to_bytes`), and two wrapper
values with equal consensus-binary forms have equal content hashes. -/
theorem C8_object_hash (tx tx2 : Transaction) :
    transaction_object_hash tx = sha256 (transaction_to_bytes tx) ∧
    (transaction_to_bytes tx = transaction_to_bytes tx2 →
      transaction_object_hash tx = transaction_object_hash tx2) := by
  refine ⟨rfl, fun h => ?_⟩
  unfold transaction_to_bytes at h
  unfold transaction_object_hash
  rw [h]

theorem C8_witness :
    transaction_object_hash c8_tx = sha256 (transaction_to_bytes c8_tx) ∧
    transaction_object_hash c8_tx = transaction_object_hash c8_tx :=
  ⟨(C8_object_hash c8_tx c8_tx).1, (C8_object_hash c8_tx c8_tx).2 rfl⟩

/-! ## GlobalConfig protobuf lemmas -/

theorem from_magic_magic (n : Network) : Network.from_magic n.magic = some n := by
  cases n <;> rfl

theorem encodeTx_ne_nil (tx : Transaction) : consensusEncodeTx tx ≠ [] := by
  unfold consensusEncodeTx
  split <;> simp [encodeLe]

theorem public_key_round_trip (k : PublicKey) (h : k.wf) :
    public_key_from_pb (public_key_to_pb k) = some k := by
  unfold public_key_from_pb public_key_to_pb
  have h' : k.data.length = 33 ∧ (k.data.headI.val = 2 ∨ k.data.headI.val = 3) ∨
      k.data.length = 65 ∧ k.data.headI.val = 4 := h
  rw [if_pos h']

theorem public_keys_mapM (ks : List PublicKey) (h : ∀ k ∈ ks, k.wf) :
    (ks.map public_key_to_pb).mapM public_key_from_pb = some ks := by
  induction ks with
  | nil => rfl
  | cons k t ih =>
    simp only [List.map_cons, List.mapM_cons,
      public_key_round_trip k (h k (List.mem_cons_self k t)),
      ih fun x hx => h x (List.mem_cons_of_mem k hx)]
    rfl

/-- C10: `GlobalConfig`'s protobuf conversion round-trips on every valid
configuration (`from_pb (to_pb c) = ok c`); an absent funding transaction is
encoded as the empty data field and decoded back to `None`, and a present
funding transaction's consensus encoding is never empty (so it is decoded
back to `Some` of the same transaction). -/
theorem C10_global_config_round_trip (c : GlobalConfig) (hwf : c.wf) :
    global_config_from_pb (global_config_to_pb c) = some c ∧
    (c.funding_transaction = none →
      (global_config_to_pb c).funding_transaction = []) ∧
    (∀ tx, consensusEncodeTx tx ≠ []) := by
  obtain ⟨hkeys, hfund⟩ := hwf
  refine ⟨?_, ?_, fun tx => encodeTx_ne_nil tx⟩
  · unfold global_config_from_pb global_config_to_pb
    dsimp only
    simp only [from_magic_magic c.network]
    cases hf : c.funding_transaction with
    | none =>
      simp only [public_keys_mapM c.public_keys hkeys]
      rw [← hf]
    | some tx =>
      have htx : tx.wf := hfund tx (by rw [hf]; exact rfl)
      have hne := encodeTx_ne_nil tx
      obtain ⟨b, bs', heq⟩ := List.exists_cons_of_ne_nil hne
      have hdec : transaction_from_bytes (b :: bs') = some tx := by
        rw [← heq]
        exact transaction_from_bytes_to_bytes tx htx
      simp only [heq, hdec, Option.map_some', public_keys_mapM c.public_keys hkeys]
      rw [← hf]
  · intro h
    unfold global_config_to_pb
    rw [h]

/-- Fixture for the C10 witness: a regtest configuration with one compressed
public key and a funding transaction. -/
def c10_config : GlobalConfig :=
  GlobalConfig.mk Network.regtest
    [PublicKey.mk (mkByte 2 :: List.replicate 32 (mkByte 0))]
    (some (Transaction.mk 1
      [TxIn.mk (OutPoint.mk (List.replicate 32 (mkByte 0)) 0xFFFFFFFF) [] 0xFFFFFFFF []]
      [] 0))
    5 10

theorem C10_witness :
    global_config_from_pb (global_config_to_pb c10_config) = some c10_config :=
  (C10_global_config_round_trip c10_config (by decide)).1
